import Mathlib

/-!
Verification development for the py-openrpc-generator code generator.

The definitions below are a shallow embedding of the Python sources:
  - `src/py_openrpc_generator/generators/typescript_converter.py`
  - `src/py_openrpc_generator/generators/golang_converter.py`
  - `src/py_openrpc_generator/generators/typescript.py`
  - `src/py_openrpc_generator/generators/golang.py`
  - `src/py_openrpc_generator/generators/base.py`

JSON schema dictionaries are embedded as the `Schema` inductive; the two
converters' mutually recursive traversals are embedded as fuel-indexed
interpreters (the Python recursion is unbounded, so a fuel parameter makes
the embedding total; running out of fuel yields `none`).
-/

namespace OpenRPCGen

/-! ### String primitives

Python string operations used by the sources, embedded over `String.data`
(the underlying character list) so that all definitions evaluate inside the
kernel. -/

/-- `s.upper()` restricted to ASCII, as the sources apply it to ASCII
identifiers. -/
def strToUpper (s : String) : String := String.mk (s.data.map Char.toUpper)

/-- `s.lower()` restricted to ASCII. -/
def strToLower (s : String) : String := String.mk (s.data.map Char.toLower)

/-- `s.startswith(p)`. -/
def strStartsWith (s p : String) : Bool := p.data.isPrefixOf s.data

/-- `s.endswith(p)`. -/
def strEndsWith (s p : String) : Bool := p.data.isSuffixOf s.data

/-- `c in s` for a single character. -/
def strContainsChar (s : String) (c : Char) : Bool := s.data.contains c

/-- `s.split(c)` for a single-character separator (Python semantics:
`"".split(".") == [""]`, separators at the ends produce empty pieces). -/
def splitOnChar (c : Char) (s : String) : List String :=
  (s.data.foldr
    (fun ch acc =>
      match acc with
      | [] => [[ch]]
      | cur :: rest => if ch = c then [] :: cur :: rest else (ch :: cur) :: rest)
    [[]]).map String.mk

/-- `s.replace(c, r)` for a single-character pattern (every occurrence is
replaced). -/
def pyReplaceChar (s : String) (c : Char) (r : String) : String :=
  String.join (s.data.map fun ch => if ch = c then r else String.mk [ch])

/-- Lexicographic comparison of character lists by code point (the order
Python uses to compare `str` values). -/
def charListLt : List Char → List Char → Bool
  | _, [] => false
  | [], _ :: _ => true
  | a :: as, b :: bs =>
    if a < b then true else if b < a then false else charListLt as bs

/-- Python `a < b` on strings: lexicographic by code point. -/
def pyStrLt (a b : String) : Bool := charListLt a.data b.data

/-- Association-list lookup keyed by strings (embeds Python `name in dict` /
`dict[name]` access on insertion-ordered dicts). -/
def lookupStr {α : Type} : List (String × α) → String → Option α
  | [], _ => none
  | (k, v) :: rest, key => if k = key then some v else lookupStr rest key

/-- Key-membership in an association list (embeds Python `key in dict`). -/
def hasKey {α : Type} (d : List (String × α)) (key : String) : Bool :=
  (lookupStr d key).isSome

/-- Insertion into an insertion-ordered dictionary with Python `d[k] = v`
semantics: an existing key keeps its position and gets the new value, a new
key is appended at the end. -/
def dictInsert {α : Type} (d : List (String × α)) (k : String) (v : α) :
    List (String × α) :=
  if hasKey d k then
    d.map (fun p => if p.1 = k then (k, v) else p)
  else
    d ++ [(k, v)]

/-- Embeds Python `d.update(d2)` on insertion-ordered dicts. -/
def dictUpdate {α : Type} (d d2 : List (String × α)) : List (String × α) :=
  d2.foldl (fun acc p => dictInsert acc p.1 p.2) d

/-- Insert a string into a deduplicated list (embeds Python `set.add` /
`set.update`; the sources only ever test membership of these sets, so the
order chosen here is irrelevant to any observable output). -/
def setInsert (s : List String) (x : String) : List String :=
  if s.contains x then s else s ++ [x]

def setUnion (s : List String) (xs : List String) : List String :=
  xs.foldl setInsert s

/-- Embeds Python `str.capitalize()`: first character upper-cased, the rest
lower-cased; empty string maps to itself. -/
def pyCapitalize (s : String) : String :=
  if s = "" then "" else strToUpper (s.take 1) ++ strToLower (s.drop 1)

/-- Embeds `word[0].upper() + word[1:].lower() if word else ""` from
`GolangConverter.go_field_name`. -/
def pyWordCap (w : String) : String :=
  if w = "" then "" else strToUpper (w.take 1) ++ strToLower (w.drop 1)

/-- Embeds `_capitalize_first` from `golang.py` and `_capitalize` from
`typescript.py`: `s[0].upper() + s[1:] if s else s` (the tail keeps its
case, unlike Python's `str.capitalize`). -/
def capitalizeFirst (s : String) : String :=
  if s = "" then s else strToUpper (s.take 1) ++ s.drop 1

/-- Embeds `ref.split("/")[-1]`. -/
def lastPathSegment (r : String) : String :=
  (splitOnChar '/' r).getLastD ""

/-- JSON enum values as they occur in `enum` lists. Python's
`isinstance(v, (int, float))` also accepts `bool` (a subclass of `int`);
`isNumericPy` reflects that. -/
inductive EnumVal : Type where
  | str (s : String)
  | int (n : Int)
  | bool (b : Bool)
  | null
  deriving DecidableEq

def EnumVal.isStr : EnumVal → Bool
  | .str _ => true
  | _ => false

def EnumVal.isNumericPy : EnumVal → Bool
  | .int _ => true
  | .bool _ => true
  | _ => false

def EnumVal.isNull : EnumVal → Bool
  | .null => true
  | _ => false

mutual
/-- A JSON Schema dictionary, restricted to the keys the converters read.
`none` in an `Option` field means the key is absent. `additionalProperties`
collapses the absent case with `True` (Python reads it via
`schema.get("additionalProperties", True)`, and a schema whose only key is
`additionalProperties: true` converts identically to the empty schema). -/
inductive Schema : Type where
  | mk (typ : Option String)
       (ref : Option String)
       (properties : Option (List (String × Schema)))
       (required : Option (List String))
       (items : Option Schema)
       (addProps : AddProps)
       (enumVals : Option (List EnumVal))
       (oneOf : Option (List Schema))
       (anyOf : Option (List Schema))
       (allOf : Option (List Schema))

/-- The `additionalProperties` value: `true` (or absent), a sub-schema, or
anything else falsy-for-`isinstance(..., dict)` such as `false`. -/
inductive AddProps : Type where
  | tru
  | other
  | schema (s : Schema)
end

namespace Schema

def typ : Schema → Option String | .mk t _ _ _ _ _ _ _ _ _ => t
def ref : Schema → Option String | .mk _ r _ _ _ _ _ _ _ _ => r
def properties : Schema → Option (List (String × Schema))
  | .mk _ _ p _ _ _ _ _ _ _ => p
def required : Schema → Option (List String) | .mk _ _ _ r _ _ _ _ _ _ => r
def items : Schema → Option Schema | .mk _ _ _ _ i _ _ _ _ _ => i
def addProps : Schema → AddProps | .mk _ _ _ _ _ a _ _ _ _ => a
def enumVals : Schema → Option (List EnumVal) | .mk _ _ _ _ _ _ e _ _ _ => e
def oneOf : Schema → Option (List Schema) | .mk _ _ _ _ _ _ _ o _ _ => o
def anyOf : Schema → Option (List Schema) | .mk _ _ _ _ _ _ _ _ a _ => a
def allOf : Schema → Option (List Schema) | .mk _ _ _ _ _ _ _ _ _ a => a

/-- Embeds Python dict truthiness `if not schema` for the key set we track
(`additionalProperties = tru` covers the absent key). -/
def isEmptyDict (s : Schema) : Bool :=
  s.typ.isNone && s.ref.isNone && s.properties.isNone && s.required.isNone &&
  s.items.isNone && (match s.addProps with | .tru => true | _ => false) &&
  s.enumVals.isNone && s.oneOf.isNone && s.anyOf.isNone && s.allOf.isNone

/-- The empty JSON object `{}` as a schema. -/
def empty : Schema := .mk none none none none none .tru none none none none

/-- Schema `{"type": t}` for a primitive type name. -/
def prim (t : String) : Schema :=
  .mk (some t) none none none none .tru none none none none

/-- Schema `{"$ref": r}`. -/
def refTo (r : String) : Schema :=
  .mk none (some r) none none none .tru none none none none

/-- Schema `{"type": "object", "properties": ..., "required": ...}`. -/
def obj (props : List (String × Schema)) (req : List String) : Schema :=
  .mk (some "object") none (some props) (some req) none .tru none none none none

end Schema

/-! ## TypeScript converter (`typescript_converter.py`) -/

/-- Converter state: `self.generated_types` (a set, modelled as a
deduplicated list) and `self.type_definitions` (a list of declaration
texts, in emission order). -/
structure TSState : Type where
  generated_types : List String
  type_definitions : List String
  deriving DecidableEq

def TSState.initial : TSState := ⟨[], []⟩

/-- Embeds `TypeScriptConverter._convert_enum`: format each value
(`"v"` for strings, `null` for None, `str(v)` otherwise) and join with
`" | "`. -/
def tsConvertEnum (vals : List EnumVal) : String :=
  String.intercalate " | " (vals.map fun v =>
    match v with
    | .str s => "\"" ++ s ++ "\""
    | .null => "null"
    | .int n => toString n
    | .bool b => if b then "True" else "False")

/-- Embeds `TypeScriptConverter._convert_string`. -/
def tsConvertString (s : Schema) : String :=
  match s.enumVals with
  | some vs => tsConvertEnum vs
  | none => "string"

/-- Embeds `TypeScriptConverter._convert_number`. -/
def tsConvertNumber (s : Schema) : String :=
  match s.enumVals with
  | some vs => tsConvertEnum vs
  | none => "number"

/-- Embeds Python `str.isalnum()` (true only on non-empty all-alphanumeric
strings). -/
def pyIsAlnum (s : String) : Bool :=
  !s.data.isEmpty && s.data.all Char.isAlphanum

/-- Embeds `TypeScriptConverter._needs_quotes`. (`prop_name[0]` assumes a
non-empty name in the source; the default head makes the embedding total.) -/
def needsQuotes (propName : String) : Bool :=
  !pyIsAlnum (pyReplaceChar propName '_' "") || (propName.data.headD 'a').isDigit

/-- State-threading conversion of a list of schemas with no name hint
(the loop bodies of `_convert_one_of` / `_convert_any_of` /
`_convert_all_of` and the tuple loop in `typescript.py`). -/
def convSchemaList {σ : Type} (conv : σ → Schema → Option (σ × String)) :
    σ → List Schema → Option (σ × List String)
  | st, [] => some (st, [])
  | st, s :: rest =>
    match conv st s with
    | none => none
    | some (st', t) =>
      match convSchemaList conv st' rest with
      | none => none
      | some (st'', ts) => some (st'', t :: ts)

/-- The field loop of `TypeScriptConverter._convert_object`: for each
property, compute the optional marker from `required` membership, convert
the property schema (no hint), and render the field line. -/
def tsFieldLines (conv : TSState → Schema → Option (TSState × String)) :
    TSState → List (String × Schema) → List String →
    Option (TSState × List String)
  | st, [], _ => some (st, [])
  | st, (propName, propSchema) :: rest, required =>
    let optionalMarker := if required.contains propName then "" else "?"
    match conv st propSchema with
    | none => none
    | some (st', propType) =>
      let propName' := if needsQuotes propName
        then "\"" ++ propName ++ "\"" else propName
      let line := "  " ++ propName' ++ optionalMarker ++ ": " ++ propType ++ ";"
      match tsFieldLines conv st' rest required with
      | none => none
      | some (st'', lines) => some (st'', line :: lines)

/-- Embeds `TypeScriptConverter._convert_object`, parameterized by the
recursive conversion function (`self.convert_schema` at smaller fuel). -/
def tsConvertObject (conv : TSState → Schema → Option (TSState × String))
    (st : TSState) (s : Schema) (typeName : Option String) :
    Option (TSState × String) :=
  let props := s.properties.getD []
  let required := s.required.getD []
  if props.isEmpty then
    match s.addProps with
    | .tru => some (st, "Record<string, any>")
    | .schema ap =>
      match conv st ap with
      | none => none
      | some (st', valueType) =>
        some (st', "Record<string, " ++ valueType ++ ">")
    | .other => some (st, "Record<string, never>")
  else
    match tsFieldLines conv st props required with
    | none => none
    | some (st', fields) =>
      match typeName with
      | some name =>
        if name ≠ "" ∧ ¬ st'.generated_types.contains name then
          let interfaceDef := "export interface " ++ name ++ " \x7b\n" ++
            String.intercalate "\n" fields ++ "\n\x7d"
          some ({ generated_types := setInsert st'.generated_types name,
                  type_definitions := st'.type_definitions ++ [interfaceDef] },
                name)
        else
          some (st', "\x7b\n" ++ String.intercalate "\n" fields ++ "\n\x7d")
      | none => some (st', "\x7b\n" ++ String.intercalate "\n" fields ++ "\n\x7d")

/-- Embeds `TypeScriptConverter._convert_array`, parameterized by the
recursive conversion function. -/
def tsConvertArray (conv : TSState → Schema → Option (TSState × String))
    (st : TSState) (s : Schema) : Option (TSState × String) :=
  match s.items with
  | none => some (st, "any[]")
  | some it =>
    if it.isEmptyDict then some (st, "any[]")
    else
      match conv st it with
      | none => none
      | some (st', itemType) =>
        if strContainsChar itemType '|' || strContainsChar itemType '&' then
          some (st', "Array<" ++ itemType ++ ">")
        else
          some (st', itemType ++ "[]")

/-- Embeds `TypeScriptConverter.resolve_ref`, parameterized by the
recursive conversion function (which takes a name hint). -/
def tsResolveRef (schemas : List (String × Schema))
    (convH : TSState → Schema → Option String → Option (TSState × String))
    (st : TSState) (r : String) : Option (TSState × String) :=
  if strStartsWith r "#/components/schemas/" then
    let typeName := lastPathSegment r
    if ¬ st.generated_types.contains typeName ∧ (lookupStr schemas typeName).isSome
    then
      match lookupStr schemas typeName with
      | none => some (st, typeName)
      | some target =>
        match convH st target (some typeName) with
        | none => none
        | some (st', _) => some (st', typeName)
    else some (st, typeName)
  else some (st, "any")

/-- Embeds `TypeScriptConverter.convert_schema` as a fuel-indexed
interpreter: the Python method is unboundedly recursive through
`resolve_ref` and the component table, so each recursive call burns one
unit of fuel; `none` means the fuel ran out. -/
def tsConvert (schemas : List (String × Schema)) :
    Nat → TSState → Schema → Option String → Option (TSState × String)
  | 0 => fun _ _ _ => none
  | n + 1 => fun st s typeName =>
    let convH := tsConvert schemas n
    let conv := fun st s => tsConvert schemas n st s none
    if s.isEmptyDict then some (st, "any")
    else
      match s.ref with
      | some r => tsResolveRef schemas convH st r
      | none =>
        match s.typ with
        | some "object" => tsConvertObject conv st s typeName
        | some "array" => tsConvertArray conv st s
        | some "string" => some (st, tsConvertString s)
        | some "number" => some (st, tsConvertNumber s)
        | some "integer" => some (st, tsConvertNumber s)
        | some "boolean" => some (st, "boolean")
        | some "null" => some (st, "null")
        | _ =>
          match s.oneOf with
          | some branches =>
            match convSchemaList conv st branches with
            | none => none
            | some (st', types) => some (st', String.intercalate " | " types)
          | none =>
            match s.anyOf with
            | some branches =>
              match convSchemaList conv st branches with
              | none => none
              | some (st', types) => some (st', String.intercalate " | " types)
            | none =>
              match s.allOf with
              | some branches =>
                match convSchemaList conv st branches with
                | none => none
                | some (st', types) =>
                  some (st', String.intercalate " & " types)
              | none =>
                match s.enumVals with
                | some vs => some (st, tsConvertEnum vs)
                | none => some (st, "any")

/-! ## Go converter (`golang_converter.py`) -/

/-- Converter state, the same shape as `TSState` (`self.generated_types`
and `self.type_definitions`). -/
structure GoState : Type where
  generated_types : List String
  type_definitions : List String
  deriving DecidableEq

def GoState.initial : GoState := ⟨[], []⟩

/-- The generated-name set of one converter state is contained in
another's: the invariant preserved by re-running a conversion whose
registrations have already happened. -/
def goGenLE (a b : GoState) : Prop :=
  ∀ x ∈ a.generated_types, x ∈ b.generated_types

/-- Embeds `GolangConverter._convert_enum`: `"string"` when every value is
a string, `"int64"` when every non-`None` value satisfies
`isinstance(v, (int, float))`, else `"interface\x7b\x7d"`. (Note both `all`
checks are vacuously true on an empty list.) -/
def goConvertEnum (vals : List EnumVal) : String :=
  if vals.all EnumVal.isStr then "string"
  else if (vals.filter (fun v => !v.isNull)).all EnumVal.isNumericPy then
    "int64"
  else "interface\x7b\x7d"

/-- Embeds `GolangConverter._convert_string`. -/
def goConvertString (s : Schema) : String :=
  match s.enumVals with
  | some vs => goConvertEnum vs
  | none => "string"

/-- The recognized-acronym set of `GolangConverter.go_field_name`. -/
def goAcronyms : List String :=
  ["id", "url", "uri", "api", "http", "https", "json", "rpc",
   "sql", "db", "ip", "ui", "uuid", "html", "xml", "csv"]

/-- The camelCase splitting loop of `GolangConverter._split_camel`:
a new word starts at an uppercase character when the current word is
non-empty. -/
def splitCamelLoop : List Char → List String → List Char → List String
  | [], words, current =>
    if current.isEmpty then words else words ++ [String.mk current]
  | c :: rest, words, current =>
    if c.isUpper ∧ ¬ current.isEmpty then
      splitCamelLoop rest (words ++ [String.mk current]) [c]
    else
      splitCamelLoop rest words (current ++ [c])

/-- Embeds `GolangConverter._split_camel`. -/
def splitCamel (name : String) : List String :=
  if name = "" then []
  else if strContainsChar name '_' then
    (splitOnChar '_' name).filter (fun w => w ≠ "")
  else
    splitCamelLoop name.data [] []

/-- Embeds `GolangConverter.go_field_name`. -/
def goFieldName (jsonName : String) : String :=
  let words := splitCamel jsonName
  let result := words.map fun word =>
    if goAcronyms.contains (strToLower word) then strToUpper (strToLower word)
    else pyWordCap word
  if result.isEmpty then pyCapitalize jsonName else String.join result

/-- The pointer-wrap guard shared by `_build_struct_fields` and
`_build_args_fields`: `go_type.startswith(("*", "[]", "map[", "interface"))`. -/
def goTypeIsNilable (goType : String) : Bool :=
  strStartsWith goType "*" || strStartsWith goType "[]" ||
  strStartsWith goType "map[" || strStartsWith goType "interface"

/-- Embeds `GolangConverter._field_go_type`, parameterized by the recursive
conversion function. -/
def goFieldGoType (conv : GoState → Schema → Option String → Option (GoState × String))
    (st : GoState) (propSchema : Schema) (goName : String)
    (parentTypeName : Option String) : Option (GoState × String) :=
  match parentTypeName with
  | none => conv st propSchema none
  | some ptn =>
    if ptn = "" then conv st propSchema none
    else if propSchema.typ == some "object" && !(propSchema.properties.getD []).isEmpty
    then
      conv st propSchema (some (ptn ++ goName))
    else if propSchema.typ = some "array" then
      let items := (propSchema.items).getD Schema.empty
      if items.typ == some "object" && !(items.properties.getD []).isEmpty then
        let base := if strEndsWith goName "s" ∧ goName.data.length > 1
          then String.mk (goName.data.dropLast) else goName
        match conv st items (some (ptn ++ base)) with
        | none => none
        | some (st', itemType) => some (st', "[]" ++ itemType)
      else conv st propSchema none
    else conv st propSchema none

/-- The field loop of `GolangConverter._build_struct_fields`. -/
def goStructFieldLines
    (conv : GoState → Schema → Option String → Option (GoState × String))
    (st : GoState) (props : List (String × Schema))
    (requiredFields : List String) (parentTypeName : Option String) :
    Option (GoState × List String) :=
  match props with
  | [] => some (st, [])
  | (jsonName, propSchema) :: rest =>
    let isRequired := requiredFields.contains jsonName
    let goName := goFieldName jsonName
    match goFieldGoType conv st propSchema goName parentTypeName with
    | none => none
    | some (st', goType0) =>
      let goType := if ¬ isRequired ∧ ¬ goTypeIsNilable goType0
        then "*" ++ goType0 else goType0
      let omitempty := if isRequired then "" else ",omitempty"
      let tag := "`json:\"" ++ jsonName ++ omitempty ++ "\"`"
      let line := "\t" ++ goName ++ " " ++ goType ++ " " ++ tag
      match goStructFieldLines conv st' rest requiredFields parentTypeName with
      | none => none
      | some (st'', lines) => some (st'', line :: lines)

/-- Embeds `GolangConverter._convert_object`, parameterized by the
recursive conversion function. -/
def goConvertObject (conv : GoState → Schema → Option String → Option (GoState × String))
    (st : GoState) (s : Schema) (typeName : Option String) :
    Option (GoState × String) :=
  let props := s.properties.getD []
  let requiredFields := s.required.getD []
  if props.isEmpty then
    match s.addProps with
    | .schema ap =>
      match conv st ap none with
      | none => none
      | some (st', valType) => some (st', "map[string]" ++ valType)
    | _ => some (st, "map[string]interface\x7b\x7d")
  else
    match goStructFieldLines conv st props requiredFields typeName with
    | none => none
    | some (st', fields) =>
      match typeName with
      | some name =>
        if name ≠ "" ∧ ¬ st'.generated_types.contains name then
          let structDef := "type " ++ name ++ " struct \x7b\n" ++
            String.intercalate "\n" fields ++ "\n\x7d"
          some ({ generated_types := setInsert st'.generated_types name,
                  type_definitions := st'.type_definitions ++ [structDef] },
                name)
        else if name ≠ "" then
          -- Already generated, just return the name
          some (st', name)
        else
          -- Falsy type_name: fall back to a map
          some (st', "map[string]interface\x7b\x7d")
      | none => some (st', "map[string]interface\x7b\x7d")

/-- Embeds `GolangConverter.resolve_ref`, parameterized by the recursive
conversion function. -/
def goResolveRef (schemas : List (String × Schema))
    (convH : GoState → Schema → Option String → Option (GoState × String))
    (st : GoState) (r : String) : Option (GoState × String) :=
  if strStartsWith r "#/components/schemas/" then
    let typeName := lastPathSegment r
    if ¬ st.generated_types.contains typeName ∧ (lookupStr schemas typeName).isSome
    then
      match lookupStr schemas typeName with
      | none => some (st, typeName)
      | some target =>
        match convH st target (some typeName) with
        | none => none
        | some (st', _) => some (st', typeName)
    else some (st, typeName)
  else some (st, "interface\x7b\x7d")

/-- The merging loop of `GolangConverter._convert_all_of`: accumulate
`merged_properties` (dict update: later branches overwrite earlier values)
and `merged_required` (set union); a branch carrying `$ref` resolves the
reference (keeping its registry side effects) and makes the whole composite
return `interface{}` immediately. -/
def goAllOfMerge (schemas : List (String × Schema))
    (convH : GoState → Schema → Option String → Option (GoState × String))
    (st : GoState) :
    List Schema → List (String × Schema) → List String →
    Option (GoState × (Option (List (String × Schema) × List String)))
  | [], mergedProps, mergedReq => some (st, some (mergedProps, mergedReq))
  | sub :: rest, mergedProps, mergedReq =>
    match sub.ref with
    | some r =>
      match goResolveRef schemas convH st r with
      | none => none
      | some (st', _refName) => some (st', none)
    | none =>
      let props := sub.properties.getD []
      let required := sub.required.getD []
      goAllOfMerge schemas convH st rest (dictUpdate mergedProps props)
        (setUnion mergedReq required)

/-- Embeds `GolangConverter._convert_all_of`. -/
def goConvertAllOf (schemas : List (String × Schema))
    (convH : GoState → Schema → Option String → Option (GoState × String))
    (st : GoState) (branches : List Schema) (typeName : Option String) :
    Option (GoState × String) :=
  match goAllOfMerge schemas convH st branches [] [] with
  | none => none
  | some (st', none) => some (st', "interface\x7b\x7d")
  | some (st', some (mergedProps, mergedReq)) =>
    if mergedProps.isEmpty then some (st', "interface\x7b\x7d")
    else
      let mockSchema : Schema :=
        .mk (some "object") none (some mergedProps) (some mergedReq) none .tru
          none none none none
      goConvertObject convH st' mockSchema typeName

/-- Embeds `GolangConverter.convert_schema` as a fuel-indexed interpreter
(same discipline as `tsConvert`). -/
def goConvert (schemas : List (String × Schema)) :
    Nat → GoState → Schema → Option String → Option (GoState × String)
  | 0 => fun _ _ _ => none
  | n + 1 => fun st s typeName =>
    let convH := goConvert schemas n
    if s.isEmptyDict then some (st, "interface\x7b\x7d")
    else
      match s.ref with
      | some r => goResolveRef schemas convH st r
      | none =>
        match s.typ with
        | some "object" => goConvertObject convH st s typeName
        | some "array" =>
          match s.items with
          | none => some (st, "[]interface\x7b\x7d")
          | some it =>
            if it.isEmptyDict then some (st, "[]interface\x7b\x7d")
            else
              match convH st it none with
              | none => none
              | some (st', itemType) => some (st', "[]" ++ itemType)
        | some "string" => some (st, goConvertString s)
        | some "integer" => some (st, "int64")
        | some "number" => some (st, "float64")
        | some "boolean" => some (st, "bool")
        | some "null" => some (st, "interface\x7b\x7d")
        | _ =>
          if s.oneOf.isSome then some (st, "interface\x7b\x7d")
          else if s.anyOf.isSome then some (st, "interface\x7b\x7d")
          else
            match s.allOf with
            | some branches => goConvertAllOf schemas convH st branches typeName
            | none =>
              match s.enumVals with
              | some vs => some (st, goConvertEnum vs)
              | none => some (st, "interface\x7b\x7d")

/-! ## Spec model (`base.py`) -/

/-- A raw error definition as found in `components.errors` or written
inline in a method's `errors` list: `{code?, message?, data?}`. `data` is
kept opaque as a schema. -/
structure ErrorDefRaw : Type where
  code : Option Int
  message : Option String
  data : Option Schema

/-- The empty dict `{}` returned by `_resolve_error_ref` on failure. -/
def ErrorDefRaw.emptyDict : ErrorDefRaw := ⟨none, none, none⟩

/-- An entry of a method's `errors` list before parsing: either an inline
error object or a `$ref` (the source takes the `$ref` path whenever the key
is present, ignoring any sibling keys). -/
inductive RawError : Type where
  | inline (e : ErrorDefRaw)
  | ref (r : String)

/-- Embeds `OpenRPCSpec._resolve_error_ref`. -/
def resolveErrorRef (componentErrors : List (String × ErrorDefRaw))
    (r : String) : ErrorDefRaw :=
  if strStartsWith r "#/components/errors/" then
    match lookupStr componentErrors (lastPathSegment r) with
    | some e => e
    | none => ErrorDefRaw.emptyDict
  else ErrorDefRaw.emptyDict

/-- A parsed error entry as produced by `OpenRPCSpec._parse_errors`:
`{"code": error.get("code"), "message": error.get("message", ""),
"data": error.get("data")}`. -/
structure ErrorInfo : Type where
  code : Option Int
  message : String
  data : Option Schema

/-- Embeds `OpenRPCSpec._parse_errors`. -/
def parseErrors (componentErrors : List (String × ErrorDefRaw))
    (errors : List RawError) : List ErrorInfo :=
  errors.map fun err =>
    let e := match err with
      | .inline e => e
      | .ref r => resolveErrorRef componentErrors r
    ⟨e.code, e.message.getD "", e.data⟩

/-- A parsed parameter (the fields of `_parse_params` the generators read). -/
structure ParamInfo : Type where
  name : String
  required : Bool
  schema : Schema
  description : String

/-- A parsed result (the fields of `_parse_result` the generators read);
a method dict with no `result` key parses to `none`. -/
structure ResultInfo : Type where
  name : String
  schema : Schema

/-- A parsed method as produced by `OpenRPCSpec.get_method_list`,
restricted to the fields the generators read. `param_structure` defaults
to `"either"` in the source. -/
structure MethodInfo : Type where
  name : String
  params : List ParamInfo
  result : Option ResultInfo
  errors : List ErrorInfo
  param_structure : String

/-! ## Go generator (`golang.py`) -/

/-- Embeds `GolangGenerator._extract_namespace`: split on the first `.`,
`default` namespace when there is no dot. -/
def extractNamespace (methodName : String) : String × String :=
  if strContainsChar methodName '.' then
    match splitOnChar '.' methodName with
    | [] => ("default", methodName)
    | p :: rest => (p, String.intercalate "." rest)
  else ("default", methodName)

/-- Embeds `GolangGenerator._namespace_to_service`:
`namespace.capitalize() + "Service"`. -/
def namespaceToService (ns : String) : String :=
  pyCapitalize ns ++ "Service"

/-- Embeds `GolangGenerator._suffix_to_go_method`. -/
def suffixToGoMethod (suffix : String) : String :=
  if suffix = "" then "Handle"
  else if strContainsChar suffix '.' then
    String.join ((splitOnChar '.' suffix).map capitalizeFirst)
  else capitalizeFirst suffix

/-- One element of `args_fields` built by
`GolangGenerator._build_args_fields`. -/
structure GoArgField : Type where
  json_name : String
  go_name : String
  go_type : String
  required : Bool
  tag : String
  description : String
  deriving DecidableEq

/-- Embeds `GolangGenerator._build_args_fields`. (The source accepts an
`is_positional` flag but never reads it — Go args structs are identical
for positional and named methods; the unused parameter is kept to mirror
the signature.) -/
def goBuildArgsFields
    (convH : GoState → Schema → Option String → Option (GoState × String))
    (st : GoState) (params : List ParamInfo) (isPositional : Bool)
    (argsTypeName : Option String) : Option (GoState × List GoArgField) :=
  match params with
  | [] => some (st, [])
  | p :: rest =>
    let _ := isPositional
    let jsonName := p.name
    let isRequired := p.required
    let goName := goFieldName jsonName
    match goFieldGoType convH st p.schema goName argsTypeName with
    | none => none
    | some (st', goType0) =>
      let goType := if ¬ isRequired ∧ ¬ goTypeIsNilable goType0
        then "*" ++ goType0 else goType0
      let omitempty := if isRequired then "" else ",omitempty"
      let field : GoArgField :=
        { json_name := jsonName, go_name := goName, go_type := goType,
          required := isRequired,
          tag := "`json:\"" ++ jsonName ++ omitempty ++ "\"`",
          description := p.description }
      match goBuildArgsFields convH st' rest isPositional argsTypeName with
      | none => none
      | some (st'', fields) => some (st'', field :: fields)

/-- A processed method as assembled by `GolangGenerator._process_methods`,
restricted to the fields the later stages read. -/
structure GoProcessed : Type where
  name : String
  errors : List ErrorInfo
  namespace_ : String
  service_name : String
  go_method_name : String
  args_type : String
  reply_type : String
  reply_inline_type : Option String
  reply_is_alias : Bool
  args_fields : List GoArgField
  has_args : Bool
  is_notification : Bool
  is_positional : Bool

/-- The reply-type block of `GolangGenerator._process_methods` (the
`if result and not is_notification:` section). Returns the updated
converter state together with `(reply_inline_type, reply_is_alias)`. -/
def goReplyBlock (schemas : List (String × Schema))
    (convH : GoState → Schema → Option String → Option (GoState × String))
    (st : GoState) (result : Option ResultInfo) (resultStructName : String) :
    Option (GoState × (Option String × Bool)) :=
  match result with
  | none => some (st, (none, false))
  | some res =>
    let resultSchema := res.schema
    if resultSchema.isEmptyDict then some (st, (none, false))
    else
      match resultSchema.ref with
      | some r =>
        match goResolveRef schemas convH st r with
        | none => none
        | some (st', refType) => some (st', (some refType, true))
      | none =>
        if resultSchema.typ = some "object" then
          match convH st resultSchema (some resultStructName) with
          | none => none
          | some (st', t) => some (st', (some t, true))
        else if resultSchema.typ = some "array" then
          match convH st resultSchema none with
          | none => none
          | some (st', itemType) =>
            let st'' :=
              if ¬ st'.generated_types.contains resultStructName then
                { generated_types := setInsert st'.generated_types resultStructName,
                  type_definitions := st'.type_definitions ++
                    ["type " ++ resultStructName ++ " struct \x7b\n\tItems " ++
                     itemType ++ " `json:\"items\"`\n\x7d"] }
              else st'
            some (st'', (some resultStructName, true))
        else
          match convH st resultSchema none with
          | none => none
          | some (st', goType) =>
            let st'' :=
              if ¬ st'.generated_types.contains resultStructName then
                { generated_types := setInsert st'.generated_types resultStructName,
                  type_definitions := st'.type_definitions ++
                    ["type " ++ resultStructName ++ " struct \x7b\n\tResult " ++
                     goType ++ " `json:\"result\"`\n\x7d"] }
              else st'
            some (st'', (some resultStructName, true))

/-- Embeds the per-method body of `GolangGenerator._process_methods`. -/
def goProcessMethod (schemas : List (String × Schema)) (fuel : Nat)
    (st : GoState) (m : MethodInfo) : Option (GoState × GoProcessed) :=
  let convH := goConvert schemas fuel
  let (ns, suffix) := extractNamespace m.name
  let serviceName := namespaceToService ns
  let goMethod := suffixToGoMethod suffix
  let argsType := serviceName ++ goMethod ++ "Args"
  let replyType := serviceName ++ goMethod ++ "Reply"
  let isNotification := m.result.isNone
  let isPositional := m.param_structure = "by-position"
  match goBuildArgsFields convH st m.params isPositional (some argsType) with
  | none => none
  | some (st1, argsFields) =>
    let resultStructName := serviceName ++ goMethod ++ "Result"
    match goReplyBlock schemas convH st1 m.result resultStructName with
    | none => none
    | some (st2, (replyInline, replyIsAlias)) =>
      some (st2,
        { name := m.name, errors := m.errors, namespace_ := ns,
          service_name := serviceName, go_method_name := goMethod,
          args_type := argsType, reply_type := replyType,
          reply_inline_type := replyInline, reply_is_alias := replyIsAlias,
          args_fields := argsFields, has_args := !m.params.isEmpty,
          is_notification := isNotification, is_positional := isPositional })

/-- Embeds `GolangGenerator._process_methods` over a method list. -/
def goProcessMethods (schemas : List (String × Schema)) (fuel : Nat)
    (st : GoState) : List MethodInfo → Option (GoState × List GoProcessed)
  | [] => some (st, [])
  | m :: rest =>
    match goProcessMethod schemas fuel st m with
    | none => none
    | some (st', pm) =>
      match goProcessMethods schemas fuel st' rest with
      | none => none
      | some (st'', pms) => some (st'', pm :: pms)

/-- Embeds `"".join(c if c.isalnum() else " " for c in message).split()`
(Python's no-argument `split` drops empty pieces). -/
def messageWords (message : String) : List String :=
  (splitOnChar ' ' (String.mk (message.data.map fun c =>
    if c.isAlphanum then c else ' '))).filter (fun w => w ≠ "")

/-- Embeds `GolangGenerator._error_to_struct_name`. -/
def errorToStructName (code : Int) (message : String) : String :=
  if message ≠ "" then
    let name := String.join ((messageWords message).map pyCapitalize)
    if name ≠ "" then name ++ "Error" else "RPCError" ++ toString code
  else "RPCError" ++ toString code

/-- A Go error-catalog entry. -/
structure GoErrorEntry : Type where
  code : Int
  message : String
  struct_name : String
  deriving DecidableEq

/-- The insertion step of `GolangGenerator._process_errors`: skip errors
whose `code` is `None`, insert first occurrences only (`code not in
errors_map`). -/
def goErrorStep (errorsMap : List (Int × GoErrorEntry)) (e : ErrorInfo) :
    List (Int × GoErrorEntry) :=
  match e.code with
  | none => errorsMap
  | some c =>
    if errorsMap.any (fun p => p.1 = c) then errorsMap
    else errorsMap ++ [(c, ⟨c, e.message, errorToStructName c e.message⟩)]

/-- Embeds `GolangGenerator._process_errors`: iterate methods in order,
each method's errors in declaration order, accumulate into an
insertion-ordered map, and return its values. -/
def goProcessErrors (methods : List GoProcessed) : List GoErrorEntry :=
  (methods.foldl (fun acc m => m.errors.foldl goErrorStep acc) []).map (·.2)

/-- A service group as assembled by `GolangGenerator._process_services`. -/
structure ServiceInfo : Type where
  name : String
  namespace_ : String
  methods : List GoProcessed

/-- The grouping loop of `_process_services`: an insertion-ordered map from
namespace to service dict, appending each method to its service. -/
def buildServiceMap (methods : List GoProcessed) :
    List (String × ServiceInfo) :=
  methods.foldl
    (fun serviceMap m =>
      match lookupStr serviceMap m.namespace_ with
      | none =>
        serviceMap ++ [(m.namespace_,
          { name := m.service_name, namespace_ := m.namespace_,
            methods := [m] })]
      | some svc =>
        dictInsert serviceMap m.namespace_
          { svc with methods := svc.methods ++ [m] })
    []

/-- Stable insertion into a name-sorted service list: an element goes after
every element whose name is not greater, which is exactly where Python's
stable `list.sort(key=lambda s: s["name"])` places it. -/
def insertServiceSorted (x : ServiceInfo) : List ServiceInfo → List ServiceInfo
  | [] => [x]
  | y :: ys =>
    if pyStrLt x.name y.name then x :: y :: ys
    else y :: insertServiceSorted x ys

/-- Stable sort by service name, modelling Python's stable
`services.sort(key=lambda s: s["name"])`. -/
def sortServicesByName (l : List ServiceInfo) : List ServiceInfo :=
  l.foldl (fun acc x => insertServiceSorted x acc) []

/-- Embeds `GolangGenerator._process_services`: group by namespace, sort
the non-`default` services by name, then append the `default` service (if
present) last. -/
def goProcessServices (methods : List GoProcessed) : List ServiceInfo :=
  let serviceMap := buildServiceMap methods
  let nonDefault := (serviceMap.filter (fun p => p.1 ≠ "default")).map (·.2)
  let defaultSvc := lookupStr serviceMap "default"
  let sorted := sortServicesByName nonDefault
  match defaultSvc with
  | some svc => sorted ++ [svc]
  | none => sorted

/-! ## TypeScript generator (`typescript.py`) -/

/-- Embeds `TypeScriptGenerator._error_code_to_class_name`. -/
def errorCodeToClassName (code : Int) (message : String) : String :=
  if message ≠ "" then
    let className := String.join ((messageWords message).map pyCapitalize)
    if className ≠ "" then className ++ "Error" else "Error" ++ toString code
  else "Error" ++ toString code

/-- A TypeScript error-catalog entry. -/
structure TSErrorEntry : Type where
  code : Int
  message : String
  class_name : String
  data : Option Schema

/-- The insertion step of `TypeScriptGenerator._process_errors`. -/
def tsErrorStep (errorsMap : List (Int × TSErrorEntry)) (e : ErrorInfo) :
    List (Int × TSErrorEntry) :=
  match e.code with
  | none => errorsMap
  | some c =>
    if errorsMap.any (fun p => p.1 = c) then errorsMap
    else errorsMap ++
      [(c, ⟨c, e.message, errorCodeToClassName c e.message, e.data⟩)]

/-- A processed method as assembled by
`TypeScriptGenerator._process_methods`, restricted to the fields the later
stages read. -/
structure TSProcessed : Type where
  name : String
  errors : List ErrorInfo
  safe_name : String
  params_type : Option String
  params_interface_name : Option String
  result_type : String
  has_params : Bool
  is_positional : Bool
  is_notification : Bool

/-- Embeds `TypeScriptGenerator._process_errors` over processed methods. -/
def tsProcessErrors (methods : List TSProcessed) : List TSErrorEntry :=
  (methods.foldl (fun acc m => m.errors.foldl tsErrorStep acc) []).map (·.2)

/-- The positional-parameter loop of `_process_methods`: convert each
parameter's schema and append `" | undefined"` to optional slots. -/
def tsPositionalSlots (conv : TSState → Schema → Option (TSState × String))
    (st : TSState) : List ParamInfo → Option (TSState × List String)
  | [] => some (st, [])
  | p :: rest =>
    match conv st p.schema with
    | none => none
    | some (st', paramType0) =>
      let paramType := if ¬ p.required then paramType0 ++ " | undefined"
        else paramType0
      match tsPositionalSlots conv st' rest with
      | none => none
      | some (st'', slots) => some (st'', paramType :: slots)

/-- The named-parameter branch of `_process_methods`: collect the
parameters into a synthetic object schema (a dict keyed by parameter name,
so a duplicated name keeps its first position with the last schema) with
the required names listed in declaration order. -/
def tsNamedParamsSchema (params : List ParamInfo) : Schema :=
  let properties := params.foldl
    (fun acc p => dictInsert acc p.name p.schema) []
  let required := (params.filter (·.required)).map (·.name)
  .mk (some "object") none (some properties) (some required) none .tru
    none none none none

/-- The parameter block of `TypeScriptGenerator._process_methods`: builds
`(params_type, params_interface_name)` for one method, threading the
converter state. -/
def tsParamsStep (schemas : List (String × Schema)) (fuel : Nat)
    (st : TSState) (m : MethodInfo) :
    Option (TSState × (Option String × Option String)) :=
  let convH := tsConvert schemas fuel
  let conv := fun st s => tsConvert schemas fuel st s none
  let safeName := pyReplaceChar m.name '.' "_"
  let isPositional := m.param_structure = "by-position"
  if m.params.isEmpty then some (st, (none, none))
  else if isPositional then
    match tsPositionalSlots conv st m.params with
    | none => none
    | some (st', slots) =>
      some (st', (some ("[" ++ String.intercalate ", " slots ++ "]"), none))
  else
    let interfaceName := capitalizeFirst safeName ++ "Params"
    match convH st (tsNamedParamsSchema m.params) (some interfaceName) with
    | none => none
    | some (st', t) => some (st', (some t, some interfaceName))

/-- Embeds the per-method body of `TypeScriptGenerator._process_methods`. -/
def tsProcessMethod (schemas : List (String × Schema)) (fuel : Nat)
    (st : TSState) (m : MethodInfo) : Option (TSState × TSProcessed) :=
  let convH := tsConvert schemas fuel
  let safeName := pyReplaceChar m.name '.' "_"
  let isPositional := m.param_structure = "by-position"
  match tsParamsStep schemas fuel st m with
  | none => none
  | some (st1, (paramsType, paramsInterfaceName)) =>
    let isNotification := m.result.isNone
    let resultStep : Option (TSState × String) :=
      match m.result with
      | none => some (st1, "void")
      | some res =>
        if res.schema.isEmptyDict then some (st1, "any")
        else
          match convH st1 res.schema (some (capitalizeFirst safeName ++ "Result"))
          with
          | none => none
          | some (st2, t) => some (st2, t)
    match resultStep with
    | none => none
    | some (st2, resultType) =>
      some (st2,
        { name := m.name, errors := m.errors, safe_name := safeName,
          params_type := paramsType,
          params_interface_name := paramsInterfaceName,
          result_type := resultType, has_params := !m.params.isEmpty,
          is_positional := isPositional, is_notification := isNotification })

/-- Embeds `TypeScriptGenerator._process_methods` over a method list. -/
def tsProcessMethods (schemas : List (String × Schema)) (fuel : Nat)
    (st : TSState) : List MethodInfo → Option (TSState × List TSProcessed)
  | [] => some (st, [])
  | m :: rest =>
    match tsProcessMethod schemas fuel st m with
    | none => none
    | some (st', pm) =>
      match tsProcessMethods schemas fuel st' rest with
      | none => none
      | some (st'', pms) => some (st'', pm :: pms)

/-! ## Specification-side definitions

Independent formulations of properties stated by the natural-language
specification, used to compare the embedded code against the spec's words.
-/

/-- The error catalog as the specification words it: iterate the flattened
error list in order; the first occurrence of a numeric code is kept with
its message, and every later occurrence of the same code is discarded;
errors without a code contribute nothing. -/
def specErrorCatalog : List ErrorInfo → List (Int × String)
  | [] => []
  | e :: rest =>
    match e.code with
    | none => specErrorCatalog rest
    | some c =>
      (c, e.message) :: specErrorCatalog (rest.filter (fun x => x.code ≠ some c))
termination_by l => l.length
decreasing_by
  all_goals simp only [List.length_cons, Nat.lt_succ_iff]
  · exact Nat.le_refl _
  · exact List.length_filter_le _ _

/-- Last-wins lookup in a single property dictionary (the value of the
last entry carrying the key). -/
def lastLookup {α : Type} (d : List (String × α)) (k : String) : Option α :=
  lookupStr d.reverse k

/-- The `allOf` property merge as the specification words it: the merged
value of a property key is the one contributed by the last branch that
declares it (later branches overwrite earlier ones). -/
def specMergedLookup (branches : List Schema) (k : String) : Option Schema :=
  branches.reverse.findSome? (fun b => lastLookup (b.properties.getD []) k)

/-- A schema tree that contains no `$ref`, `oneOf`, `anyOf`, or `allOf`
anywhere (the hypothesis of the spec's purity property). -/
inductive Plain : Schema → Prop where
  | intro (typ : Option String) (props : Option (List (String × Schema)))
      (req : Option (List String)) (items : Option Schema) (ap : AddProps)
      (ev : Option (List EnumVal))
      (hprops : ∀ p ∈ props.getD [], Plain p.2)
      (hitems : ∀ i, items = some i → Plain i)
      (hap : ∀ s, ap = AddProps.schema s → Plain s) :
      Plain (.mk typ none props req items ap ev none none none)

/-- A scalar-typed schema (bare `string` / `integer` / `number` /
`boolean`, no enum attached): conversion of such a schema is pure in both
converters. -/
def isSimpleScalar (s : Schema) : Bool :=
  s.ref.isNone && s.enumVals.isNone &&
  (s.typ == some "string" || s.typ == some "integer" ||
   s.typ == some "number" || s.typ == some "boolean")

/-- The primitive TypeScript type for a scalar schema. -/
def tsPrimOf (s : Schema) : String :=
  match s.typ with
  | some "string" => "string"
  | some "boolean" => "boolean"
  | _ => "number"

/-- The primitive Go type for a scalar schema. -/
def goPrimOf (s : Schema) : String :=
  match s.typ with
  | some "string" => "string"
  | some "integer" => "int64"
  | some "number" => "float64"
  | _ => "bool"

/-! ## Concrete inputs used by examples, witnesses and counterexamples -/

/-- Schema `\x7b"enum": vals\x7d`. -/
def Schema.enumOf (vals : List EnumVal) : Schema :=
  .mk none none none none none .tru (some vals) none none none

/-- Schema `\x7b"allOf": branches\x7d`. -/
def Schema.allOfS (branches : List Schema) : Schema :=
  .mk none none none none none .tru none none none (some branches)

/-- The self-referential `Node` schema from the specification:
`Node \x7b next: $ref Node \x7d`. -/
def nodeSchema : Schema :=
  Schema.obj [("next", Schema.refTo "#/components/schemas/Node")] []

/-- A component table containing only the self-referential `Node`. -/
def nodeComponents : List (String × Schema) := [("Node", nodeSchema)]

/-- A method with no `result` key and one string parameter (a
notification). -/
def notifyMethod : MethodInfo :=
  { name := "log.write",
    params := [{ name := "line", required := true,
                 schema := Schema.prim "string", description := "" }],
    result := none, errors := [], param_structure := "either" }

/-- The positional method of the spec's testable property: one required
string parameter and one optional integer parameter, `paramStructure =
"by-position"`. -/
def positionalMethod : MethodInfo :=
  { name := "item.tag",
    params := [{ name := "name", required := true,
                 schema := Schema.prim "string", description := "" },
               { name := "count", required := false,
                 schema := Schema.prim "integer", description := "" }],
    result := none, errors := [], param_structure := "by-position" }

/-- Methods `"zeta.run"`, `"alpha.run"`, `"run"` from the spec's namespace
ordering property. -/
def orderingMethods : List MethodInfo :=
  [{ name := "zeta.run", params := [], result := none, errors := [],
     param_structure := "either" },
   { name := "alpha.run", params := [], result := none, errors := [],
     param_structure := "either" },
   { name := "run", params := [], result := none, errors := [],
     param_structure := "either" }]

/-- Two methods declaring errors with the same code `404` and different
messages (the spec's deduplication property). -/
def dupErrorMethodsGo : List GoProcessed :=
  [{ name := "a.get", errors := [⟨some 404, "Not Found", none⟩],
     namespace_ := "a", service_name := "AService", go_method_name := "Get",
     args_type := "AServiceGetArgs", reply_type := "AServiceGetReply",
     reply_inline_type := none, reply_is_alias := false, args_fields := [],
     has_args := false, is_notification := true, is_positional := false },
   { name := "b.get", errors := [⟨some 404, "Missing", none⟩],
     namespace_ := "b", service_name := "BService", go_method_name := "Get",
     args_type := "BServiceGetArgs", reply_type := "BServiceGetReply",
     reply_inline_type := none, reply_is_alias := false, args_fields := [],
     has_args := false, is_notification := true, is_positional := false }]

/-- C3's repeated-call input: the object schema
`{"type":"object","properties":{"a":{"type":"string"}},"required":["a"]}`. -/
def c3S : Schema := Schema.obj [("a", Schema.prim "string")] ["a"]

/-- The Go converter state after the first `convert_schema(c3S, "Foo")`. -/
def c3GoSt : GoState :=
  ⟨["Foo"], ["type Foo struct \x7b\n\tA string `json:\"a\"`\n\x7d"]⟩

/-- The TypeScript converter state after the first
`convert_schema(c3S, "Foo")`. -/
def c3TsSt : TSState :=
  ⟨["Foo"], ["export interface Foo \x7b\n  a: string;\n\x7d"]⟩

/-! ## Theorems -/

/-- C1: the claim says conversion of a self-referential schema such as
`Node \x7b next: $ref Node \x7d` terminates, registering `Node` at most once
("reserve name, then fill body"). The code instead registers a type name
only *after* all property fields have been converted, so resolving the
self-reference re-enters conversion of `Node` before `Node` is registered:
for every fuel bound, both converters run out of fuel on the `Node` schema
(i.e. the Python recursion never returns; it aborts with `RecursionError`).
This theorem evaluates the embedded code at the failing input: no finite
recursion depth suffices. -/
theorem c1_node_cycle_diverges (n : Nat) :
    tsConvert nodeComponents n TSState.initial nodeSchema (some "Node") = none
    ∧ tsConvert nodeComponents n TSState.initial
        (Schema.refTo "#/components/schemas/Node") none = none
    ∧ goConvert nodeComponents n GoState.initial nodeSchema (some "Node") = none
    ∧ goConvert nodeComponents n GoState.initial
        (Schema.refTo "#/components/schemas/Node") none = none := by
  induction n with
  | zero => exact ⟨rfl, rfl, rfl, rfl⟩
  | succ m ih =>
    obtain ⟨ih1, ih2, ih3, ih4⟩ := ih
    simp only [nodeComponents, nodeSchema, Schema.obj, Schema.refTo,
      TSState.initial, GoState.initial] at ih1 ih2 ih3 ih4 ⊢
    refine ⟨?_, ?_, ?_, ?_⟩
    · simp [tsConvert, tsConvertObject, tsFieldLines,
        Schema.isEmptyDict, Schema.typ, Schema.ref, Schema.properties,
        Schema.required, Schema.items, Schema.addProps, Schema.enumVals,
        Schema.oneOf, Schema.anyOf, Schema.allOf, ih2]
    · simp [tsConvert, tsResolveRef, lookupStr, lastPathSegment,
        splitOnChar, strStartsWith,
        Schema.isEmptyDict, Schema.typ, Schema.ref, Schema.properties,
        Schema.required, Schema.items, Schema.addProps, Schema.enumVals,
        Schema.oneOf, Schema.anyOf, Schema.allOf, ih1]
    · simp [goConvert, goConvertObject, goStructFieldLines, goFieldGoType,
        Schema.isEmptyDict, Schema.typ, Schema.ref, Schema.properties,
        Schema.required, Schema.items, Schema.addProps, Schema.enumVals,
        Schema.oneOf, Schema.anyOf, Schema.allOf, ih4]
    · simp [goConvert, goResolveRef, lookupStr, lastPathSegment,
        splitOnChar, strStartsWith,
        Schema.isEmptyDict, Schema.typ, Schema.ref, Schema.properties,
        Schema.required, Schema.items, Schema.addProps, Schema.enumVals,
        Schema.oneOf, Schema.anyOf, Schema.allOf, ih3]

/-- C4 counterexample: a reference `#/components/schemas/Missing` whose
target is absent from the component table does *not* degrade to the
opaque/any type as claimed: both converters return the dangling type name
`Missing`. -/
theorem c4_counterexample :
    tsConvert [] 1 TSState.initial
      (Schema.refTo "#/components/schemas/Missing") none
      = some (TSState.initial, "Missing")
    ∧ goConvert [] 1 GoState.initial
        (Schema.refTo "#/components/schemas/Missing") none
      = some (GoState.initial, "Missing")
    ∧ "Missing" ≠ "any" ∧ "Missing" ≠ "interface\x7b\x7d" := by decide

/-- C4 (amended): a `$ref` whose target string does not start with
`#/components/schemas/` degrades to the opaque/any type; a
`#/components/schemas/X` reference with `X` absent from the component
table instead returns the dangling name `X` unconditionally, registering
nothing and never failing the run. -/
theorem c4_unresolved_ref_behavior (schemas : List (String × Schema))
    (r : String) (n : Nat) (tst : TSState) (gst : GoState) :
    (strStartsWith r "#/components/schemas/" = false →
      tsConvert schemas (n + 1) tst (Schema.refTo r) none = some (tst, "any")
      ∧ goConvert schemas (n + 1) gst (Schema.refTo r) none
        = some (gst, "interface\x7b\x7d"))
    ∧ (strStartsWith r "#/components/schemas/" = true →
       lookupStr schemas (lastPathSegment r) = none →
       tsConvert schemas (n + 1) tst (Schema.refTo r) none
         = some (tst, lastPathSegment r)
       ∧ goConvert schemas (n + 1) gst (Schema.refTo r) none
         = some (gst, lastPathSegment r)) := by
  constructor
  · intro h
    constructor
    · simp [tsConvert, tsResolveRef, Schema.refTo, Schema.isEmptyDict,
        Schema.typ, Schema.ref, h]
    · simp [goConvert, goResolveRef, Schema.refTo, Schema.isEmptyDict,
        Schema.typ, Schema.ref, h]
  · intro h hl
    constructor
    · simp [tsConvert, tsResolveRef, Schema.refTo, Schema.isEmptyDict,
        Schema.typ, Schema.ref, h, hl]
    · simp [goConvert, goResolveRef, Schema.refTo, Schema.isEmptyDict,
        Schema.typ, Schema.ref, h, hl]

/-- C4 witness: the amended behavior at two concrete references. -/
theorem c4_witness :
    tsConvert [] 1 TSState.initial (Schema.refTo "#/definitions/X") none
      = some (TSState.initial, "any")
    ∧ goConvert [] 1 GoState.initial
        (Schema.refTo "#/components/schemas/Missing") none
      = some (GoState.initial, "Missing") :=
  ⟨((c4_unresolved_ref_behavior [] "#/definitions/X" 0 TSState.initial
      GoState.initial).1 (by decide)).1,
   by
    have h := ((c4_unresolved_ref_behavior [] "#/components/schemas/Missing" 0
      TSState.initial GoState.initial).2 (by decide) rfl).2
    exact h.trans (by decide)⟩

/-- C5 counterexample: an empty enum list does not degrade to the
opaque/any type — the Go converter produces `"string"` (both `all` checks
are vacuously true) and the TypeScript converter produces the empty
string; a mixed string/number enum in TypeScript produces the literal
union, not `any`. -/
theorem c5_counterexample :
    goConvert [] 1 GoState.initial (Schema.enumOf []) none
      = some (GoState.initial, "string")
    ∧ tsConvert [] 1 TSState.initial (Schema.enumOf []) none
      = some (TSState.initial, "")
    ∧ tsConvert [] 1 TSState.initial
        (Schema.enumOf [.str "a", .int 1]) none
      = some (TSState.initial, "\"a\" | 1")
    ∧ "string" ≠ "interface\x7b\x7d" ∧ ("" : String) ≠ "any"
    ∧ "\"a\" | 1" ≠ "any" := by decide

/-- C5 (amended): enum conversion dispatches through `convert_schema` to
the target-specific enum converters; in Go an all-strings list produces
`string`, a non-empty all-integers list produces `int64`, and a mixed
strings-and-numbers list produces `interface\x7b\x7d`; the TypeScript
converter always produces the `" | "` union of the formatted literal
values (so a mixed list yields a mixed literal union); an empty list
produces `string` in Go and the empty string in TypeScript, not an
opaque/any type. -/
theorem c5_enum_behavior (schemas : List (String × Schema)) (gst : GoState)
    (tst : TSState) (vals : List EnumVal) (n : Nat) :
    goConvert schemas (n + 1) gst (Schema.enumOf vals) none
      = some (gst, goConvertEnum vals)
    ∧ tsConvert schemas (n + 1) tst (Schema.enumOf vals) none
      = some (tst, tsConvertEnum vals)
    ∧ ((∀ v ∈ vals, v.isStr = true) → goConvertEnum vals = "string")
    ∧ (vals ≠ [] → (∀ v ∈ vals, ∃ k, v = EnumVal.int k) →
        goConvertEnum vals = "int64")
    ∧ ((∃ v ∈ vals, v.isStr = true) → (∃ v ∈ vals, ∃ k, v = EnumVal.int k) →
        goConvertEnum vals = "interface\x7b\x7d") := by
  refine ⟨?_, ?_, ?_, ?_, ?_⟩
  · simp [goConvert, Schema.enumOf, Schema.isEmptyDict, Schema.typ,
      Schema.ref, Schema.oneOf, Schema.anyOf, Schema.allOf, Schema.enumVals]
  · simp [tsConvert, Schema.enumOf, Schema.isEmptyDict, Schema.typ,
      Schema.ref, Schema.oneOf, Schema.anyOf, Schema.allOf, Schema.enumVals]
  · intro h
    have hc : vals.all EnumVal.isStr = true := by
      simp only [List.all_eq_true]; exact h
    simp [goConvertEnum, hc]
  · intro hne h
    obtain ⟨v0, vrest, rfl⟩ := List.exists_cons_of_ne_nil hne
    obtain ⟨k0, rfl⟩ := h _ (List.mem_cons_self _ _)
    have hstr : ¬ ((EnumVal.int k0 :: vrest).all EnumVal.isStr = true) := by
      simp [List.all_eq_true, EnumVal.isStr]
    have hnum : ((EnumVal.int k0 :: vrest).filter
        (fun v => !v.isNull)).all EnumVal.isNumericPy = true := by
      simp only [List.all_eq_true]
      intro v hv
      have hv' := List.mem_filter.mp hv |>.1
      rcases h v hv' with ⟨k, rfl⟩
      rfl
    simp [goConvertEnum, hstr, hnum]
  · rintro ⟨vs, hvs, hstr⟩ ⟨vi, hvi, k, rfl⟩
    have h1 : ¬ (vals.all EnumVal.isStr = true) := by
      simp only [List.all_eq_true]
      intro h
      have := h _ hvi
      simp [EnumVal.isStr] at this
    have h2 : ¬ ((vals.filter (fun v => !v.isNull)).all
        EnumVal.isNumericPy = true) := by
      simp only [List.all_eq_true]
      intro h
      have hmem : vs ∈ vals.filter (fun v => !v.isNull) := by
        refine List.mem_filter.mpr ⟨hvs, ?_⟩
        cases vs <;> simp_all [EnumVal.isStr, EnumVal.isNull]
      have := h _ hmem
      cases vs <;> simp_all [EnumVal.isStr, EnumVal.isNumericPy]
    simp [goConvertEnum, h1, h2]

/-- C5 witness: the amended enum behavior at concrete value lists. -/
theorem c5_witness :
    goConvertEnum [.str "a", .str "b"] = "string"
    ∧ goConvertEnum [.int 1, .int 2] = "int64"
    ∧ goConvertEnum [.str "a", .int 1] = "interface\x7b\x7d" :=
  ⟨(c5_enum_behavior [] GoState.initial TSState.initial
      [.str "a", .str "b"] 0).2.2.1 (by decide),
   (c5_enum_behavior [] GoState.initial TSState.initial
      [.int 1, .int 2] 0).2.2.2.1 (by decide)
     (by
       intro v hv
       simp only [List.mem_cons, List.not_mem_nil, or_false] at hv
       rcases hv with rfl | rfl
       · exact ⟨1, rfl⟩
       · exact ⟨2, rfl⟩),
   (c5_enum_behavior [] GoState.initial TSState.initial
      [.str "a", .int 1] 0).2.2.2.2 ⟨.str "a", by simp, rfl⟩
     ⟨.int 1, by simp, 1, rfl⟩⟩

theorem charListLt_iff : ∀ as bs : List Char,
    charListLt as bs = true ↔ List.Lex (· < ·) as bs := by
  intro as
  induction as with
  | nil =>
    intro bs
    cases bs with
    | nil =>
      simp only [charListLt, Bool.false_eq_true, false_iff]
      exact fun h => nomatch h
    | cons b bs =>
      simp only [charListLt, true_iff]
      exact List.Lex.nil
  | cons a as ih =>
    intro bs
    cases bs with
    | nil =>
      simp only [charListLt, Bool.false_eq_true, false_iff]
      exact fun h => nomatch h
    | cons b bs =>
      simp only [charListLt]
      by_cases h1 : a < b
      · simp only [if_pos h1, true_iff]
        exact List.Lex.rel h1
      · by_cases h2 : b < a
        · simp only [if_neg h1, if_pos h2, Bool.false_eq_true, false_iff]
          intro h
          cases h with
          | cons h' => exact lt_irrefl _ h2
          | rel h' => exact h1 h'
        · have hab : a = b := le_antisymm (not_lt.mp h2) (not_lt.mp h1)
          subst hab
          simp only [if_neg h1, if_neg h2, ih bs]
          constructor
          · exact fun h => List.Lex.cons h
          · intro h
            cases h with
            | cons h' => exact h'
            | rel h' => exact absurd h' h1

theorem pyStrLt_iff (a b : String) : pyStrLt a b = true ↔ a < b := by
  rw [String.lt_iff_toList_lt]
  exact charListLt_iff a.data b.data

theorem mem_insertServiceSorted {x z : ServiceInfo} {l : List ServiceInfo} :
    z ∈ insertServiceSorted x l ↔ z = x ∨ z ∈ l := by
  induction l with
  | nil => simp [insertServiceSorted]
  | cons y ys ih =>
    simp only [insertServiceSorted]
    split
    · simp [List.mem_cons]
    · simp only [List.mem_cons, ih]
      tauto

theorem pairwise_insertServiceSorted {x : ServiceInfo} {l : List ServiceInfo}
    (h : l.Pairwise (fun a b => a.name ≤ b.name)) :
    (insertServiceSorted x l).Pairwise (fun a b => a.name ≤ b.name) := by
  induction l with
  | nil => simp [insertServiceSorted]
  | cons y ys ih =>
    rw [List.pairwise_cons] at h
    obtain ⟨hy, hys⟩ := h
    simp only [insertServiceSorted]
    split
    · rename_i hlt
      have hlt' : x.name < y.name := (pyStrLt_iff _ _).mp hlt
      rw [List.pairwise_cons]
      refine ⟨fun z hz => ?_, List.pairwise_cons.mpr ⟨hy, hys⟩⟩
      rcases List.mem_cons.mp hz with rfl | hz'
      · exact le_of_lt hlt'
      · exact le_trans (le_of_lt hlt') (hy z hz')
    · rename_i hnlt
      have hnlt' : ¬ x.name < y.name := fun hc =>
        hnlt ((pyStrLt_iff _ _).mpr hc)
      rw [List.pairwise_cons]
      refine ⟨fun z hz => ?_, ih hys⟩
      rcases mem_insertServiceSorted.mp hz with rfl | hz'
      · exact le_of_not_lt hnlt'
      · exact hy z hz'

theorem sortServicesByName_sorted_mem (l : List ServiceInfo) :
    (sortServicesByName l).Pairwise (fun a b => a.name ≤ b.name)
    ∧ ∀ z ∈ sortServicesByName l, z ∈ l := by
  have main : ∀ (l acc : List ServiceInfo),
      acc.Pairwise (fun a b => a.name ≤ b.name) →
      (l.foldl (fun acc x => insertServiceSorted x acc) acc).Pairwise
        (fun a b => a.name ≤ b.name)
      ∧ ∀ z ∈ l.foldl (fun acc x => insertServiceSorted x acc) acc,
          z ∈ acc ∨ z ∈ l := by
    intro l
    induction l with
    | nil => exact fun acc h => ⟨h, fun z hz => Or.inl hz⟩
    | cons x xs ih =>
      intro acc h
      simp only [List.foldl_cons]
      obtain ⟨h1, h2⟩ := ih (insertServiceSorted x acc)
        (pairwise_insertServiceSorted h)
      refine ⟨h1, fun z hz => ?_⟩
      rcases h2 z hz with hz' | hz'
      · rcases mem_insertServiceSorted.mp hz' with rfl | hz''
        · exact Or.inr (List.mem_cons_self _ _)
        · exact Or.inl hz''
      · exact Or.inr (List.mem_cons_of_mem _ hz')
  have h := main l [] List.Pairwise.nil
  refine ⟨h.1, fun z hz => ?_⟩
  rcases h.2 z hz with hz' | hz'
  · exact absurd hz' (List.not_mem_nil z)
  · exact hz'

theorem lookupStr_mem {α : Type} {d : List (String × α)} {k : String}
    {v : α} (h : lookupStr d k = some v) : (k, v) ∈ d := by
  induction d with
  | nil => simp [lookupStr] at h
  | cons p rest ih =>
    rw [lookupStr] at h
    split at h
    · rename_i heq
      obtain rfl := heq
      obtain ⟨rfl⟩ := Option.some.inj h
      exact List.mem_cons_self _ _
    · exact List.mem_cons_of_mem _ (ih h)

theorem buildServiceMap_namespace (ms : List GoProcessed) :
    ∀ p ∈ buildServiceMap ms, p.2.namespace_ = p.1 := by
  have main : ∀ (ms : List GoProcessed) (acc : List (String × ServiceInfo)),
      (∀ p ∈ acc, p.2.namespace_ = p.1) →
      ∀ p ∈ ms.foldl
        (fun serviceMap m =>
          match lookupStr serviceMap m.namespace_ with
          | none =>
            serviceMap ++ [(m.namespace_,
              { name := m.service_name, namespace_ := m.namespace_,
                methods := [m] })]
          | some svc =>
            dictInsert serviceMap m.namespace_
              { svc with methods := svc.methods ++ [m] }) acc,
        p.2.namespace_ = p.1 := by
    intro ms
    induction ms with
    | nil => exact fun acc h => h
    | cons m rest ih =>
      intro acc h
      simp only [List.foldl_cons]
      apply ih
      cases hlook : lookupStr acc m.namespace_ with
      | none =>
        simp only [hlook]
        intro p hp
        rcases List.mem_append.mp hp with hp' | hp'
        · exact h p hp'
        · simp only [List.mem_singleton] at hp'
          subst hp'
          rfl
      | some svc =>
        simp only [hlook, dictInsert]
        split
        · intro p hp
          obtain ⟨q, hq, hqp⟩ := List.mem_map.mp hp
          by_cases hk : q.1 = m.namespace_
          · rw [if_pos hk] at hqp
            subst hqp
            simpa using h _ (lookupStr_mem hlook)
          · rw [if_neg hk] at hqp
            subst hqp
            exact h q hq
        · intro p hp
          rcases List.mem_append.mp hp with hp' | hp'
          · exact h p hp'
          · simp only [List.mem_singleton] at hp'
            subst hp'
            have := h _ (lookupStr_mem hlook)
            simpa using this
  exact main ms [] (by intro p hp; exact absurd hp (List.not_mem_nil p))

/-- C7: grouping methods into services emits all non-`default` services
sorted lexicographically by derived service name, with the `default`
service (when one exists in the namespace map) appended last; methods
`"zeta.run"`, `"alpha.run"`, `"run"` produce services
`[AlphaService, ZetaService, DefaultService]`. -/
theorem c7_service_ordering (ms : List GoProcessed) :
    goProcessServices ms =
      sortServicesByName
        (((buildServiceMap ms).filter (fun p => p.1 ≠ "default")).map (·.2))
      ++ (match lookupStr (buildServiceMap ms) "default" with
          | some svc => [svc]
          | none => [])
    ∧ (sortServicesByName
        (((buildServiceMap ms).filter (fun p => p.1 ≠ "default")).map
          (·.2))).Pairwise (fun a b => a.name ≤ b.name)
    ∧ (∀ ns ∈ (sortServicesByName
        (((buildServiceMap ms).filter (fun p => p.1 ≠ "default")).map
          (·.2))).map (fun s => s.namespace_), ns ≠ "default")
    ∧ (goProcessServices
        (((goProcessMethods [] 1 GoState.initial orderingMethods).getD
          (GoState.initial, [])).2)).map (fun s => s.name)
      = ["AlphaService", "ZetaService", "DefaultService"] := by
  refine ⟨?_, ?_, ?_, ?_⟩
  · rw [goProcessServices]
    cases hdef : lookupStr (buildServiceMap ms) "default" <;> simp [hdef]
  · exact (sortServicesByName_sorted_mem _).1
  · intro ns hns
    obtain ⟨s, hs, rfl⟩ := List.mem_map.mp hns
    have hmem := (sortServicesByName_sorted_mem _).2 s hs
    obtain ⟨p, hp, rfl⟩ := List.mem_map.mp hmem
    have hfilter := List.mem_filter.mp hp
    have hnsp := buildServiceMap_namespace ms p hfilter.1
    rw [hnsp]
    simpa using hfilter.2
  · decide

/-- C7 witness: the ordering facts at the concrete
`zeta.run`/`alpha.run`/`run` spec, with a concrete non-default namespace. -/
theorem c7_witness :
    ("alpha" : String) ≠ "default"
    ∧ (goProcessServices
        (((goProcessMethods [] 1 GoState.initial orderingMethods).getD
          (GoState.initial, [])).2)).map (fun s => s.name)
      = ["AlphaService", "ZetaService", "DefaultService"] := by
  have h := c7_service_ordering
    (((goProcessMethods [] 1 GoState.initial orderingMethods).getD
      (GoState.initial, [])).2)
  exact ⟨h.2.2.1 "alpha" (by decide), h.2.2.2⟩

theorem specErrorCatalog_nil : specErrorCatalog [] = [] := by
  simp [specErrorCatalog]

theorem specErrorCatalog_cons_none {e : ErrorInfo} (l : List ErrorInfo)
    (hc : e.code = none) : specErrorCatalog (e :: l) = specErrorCatalog l := by
  rw [specErrorCatalog, hc]

theorem specErrorCatalog_cons_some {e : ErrorInfo} {c : Int}
    (l : List ErrorInfo) (hc : e.code = some c) :
    specErrorCatalog (e :: l)
      = (c, e.message) ::
        specErrorCatalog (l.filter (fun x => x.code ≠ some c)) := by
  rw [specErrorCatalog, hc]

theorem foldl_errors_flatMap {β γ : Type} (step : β → ErrorInfo → β)
    (errs : γ → List ErrorInfo) :
    ∀ (ms : List γ) (acc : β),
    ms.foldl (fun a m => (errs m).foldl step a) acc
      = (ms.flatMap errs).foldl step acc := by
  intro ms
  induction ms with
  | nil => intro acc; simp
  | cons m rest ih =>
    intro acc
    simp only [List.foldl_cons, List.flatMap_cons, List.foldl_append]
    exact ih _

theorem goErrorFold_spec (errs : List ErrorInfo) :
    ∀ acc : List (Int × GoErrorEntry),
    ((errs.foldl goErrorStep acc).map (fun p => (p.2.code, p.2.message)))
      = acc.map (fun p => (p.2.code, p.2.message))
        ++ specErrorCatalog (errs.filter (fun e =>
             match e.code with
             | some c => !(acc.any (fun p => p.1 = c))
             | none => true)) := by
  induction errs with
  | nil => intro acc; simp [specErrorCatalog_nil]
  | cons e rest ih =>
    intro acc
    rw [List.foldl_cons]
    cases hc : e.code with
    | none =>
      have hstep : goErrorStep acc e = acc := by simp [goErrorStep, hc]
      rw [hstep, ih acc, List.filter_cons_of_pos (by simp [hc]),
        specErrorCatalog_cons_none _ hc]
    | some c =>
      by_cases hseen : acc.any (fun p => p.1 = c) = true
      · have hstep : goErrorStep acc e = acc := by
          simp [goErrorStep, hc, hseen]
        rw [hstep, ih acc, List.filter_cons_of_neg (by simp [hc, hseen])]
      · have hstep : goErrorStep acc e
            = acc ++ [(c, ⟨c, e.message, errorToStructName c e.message⟩)] := by
          simp [goErrorStep, hc, hseen]
        have hfilters : rest.filter (fun x =>
              match x.code with
              | some c' => !((acc ++
                  [(c, GoErrorEntry.mk c e.message
                      (errorToStructName c e.message))]).any
                    (fun p => p.1 = c'))
              | none => true)
            = (rest.filter (fun x =>
                match x.code with
                | some c' => !(acc.any (fun p => p.1 = c'))
                | none => true)).filter (fun x => x.code ≠ some c) := by
          rw [List.filter_filter]
          apply List.filter_congr
          intro x _
          cases hx : x.code with
          | none => simp [hx]
          | some c' =>
            simp only [hx, List.any_append, List.any_cons, List.any_nil,
              Bool.or_false, Bool.not_or]
            by_cases hcc : c' = c
            · subst hcc
              simp
            · simp [hcc, Ne.symm hcc]
        rw [hstep, ih _, List.filter_cons_of_pos (by simp [hc, hseen]),
          specErrorCatalog_cons_some _ hc, List.map_append, hfilters]
        simp

theorem tsErrorFold_spec (errs : List ErrorInfo) :
    ∀ acc : List (Int × TSErrorEntry),
    ((errs.foldl tsErrorStep acc).map (fun p => (p.2.code, p.2.message)))
      = acc.map (fun p => (p.2.code, p.2.message))
        ++ specErrorCatalog (errs.filter (fun e =>
             match e.code with
             | some c => !(acc.any (fun p => p.1 = c))
             | none => true)) := by
  induction errs with
  | nil => intro acc; simp [specErrorCatalog_nil]
  | cons e rest ih =>
    intro acc
    rw [List.foldl_cons]
    cases hc : e.code with
    | none =>
      have hstep : tsErrorStep acc e = acc := by simp [tsErrorStep, hc]
      rw [hstep, ih acc, List.filter_cons_of_pos (by simp [hc]),
        specErrorCatalog_cons_none _ hc]
    | some c =>
      by_cases hseen : acc.any (fun p => p.1 = c) = true
      · have hstep : tsErrorStep acc e = acc := by
          simp [tsErrorStep, hc, hseen]
        rw [hstep, ih acc, List.filter_cons_of_neg (by simp [hc, hseen])]
      · have hstep : tsErrorStep acc e
            = acc ++ [(c, ⟨c, e.message,
                errorCodeToClassName c e.message, e.data⟩)] := by
          simp [tsErrorStep, hc, hseen]
        have hfilters : rest.filter (fun x =>
              match x.code with
              | some c' => !((acc ++
                  [(c, TSErrorEntry.mk c e.message
                      (errorCodeToClassName c e.message) e.data)]).any
                    (fun p => p.1 = c'))
              | none => true)
            = (rest.filter (fun x =>
                match x.code with
                | some c' => !(acc.any (fun p => p.1 = c'))
                | none => true)).filter (fun x => x.code ≠ some c) := by
          rw [List.filter_filter]
          apply List.filter_congr
          intro x _
          cases hx : x.code with
          | none => simp [hx]
          | some c' =>
            simp only [hx, List.any_append, List.any_cons, List.any_nil,
              Bool.or_false, Bool.not_or]
            by_cases hcc : c' = c
            · subst hcc
              simp
            · simp [hcc, Ne.symm hcc]
        rw [hstep, ih _, List.filter_cons_of_pos (by simp [hc, hseen]),
          specErrorCatalog_cons_some _ hc, List.map_append, hfilters]
        simp

theorem specErrorCatalog_mem_code :
    ∀ (n : Nat) (l : List ErrorInfo), l.length ≤ n →
    ∀ x ∈ specErrorCatalog l, ∃ e ∈ l, e.code = some x.1 := by
  intro n
  induction n with
  | zero =>
    intro l hl x hx
    rw [List.length_eq_zero.mp (Nat.le_zero.mp hl)] at hx
    rw [specErrorCatalog_nil] at hx
    exact absurd hx (List.not_mem_nil x)
  | succ m ih =>
    intro l hl x hx
    cases l with
    | nil =>
      rw [specErrorCatalog_nil] at hx
      exact absurd hx (List.not_mem_nil x)
    | cons e rest =>
      rw [List.length_cons, Nat.succ_le_succ_iff] at hl
      cases hc : e.code with
      | none =>
        rw [specErrorCatalog_cons_none _ hc] at hx
        obtain ⟨e', he', hc'⟩ := ih rest hl x hx
        exact ⟨e', List.mem_cons_of_mem _ he', hc'⟩
      | some c =>
        rw [specErrorCatalog_cons_some _ hc] at hx
        rcases List.mem_cons.mp hx with rfl | hx'
        · exact ⟨e, List.mem_cons_self _ _, hc⟩
        · obtain ⟨e', he', hc'⟩ := ih _
            (le_trans (List.length_filter_le _ _) hl) x hx'
          exact ⟨e', List.mem_cons_of_mem _ (List.mem_filter.mp he').1, hc'⟩

theorem specErrorCatalog_codes_nodup :
    ∀ (n : Nat) (l : List ErrorInfo), l.length ≤ n →
    ((specErrorCatalog l).map (fun p => p.1)).Nodup := by
  intro n
  induction n with
  | zero =>
    intro l hl
    rw [List.length_eq_zero.mp (Nat.le_zero.mp hl), specErrorCatalog_nil]
    exact List.nodup_nil
  | succ m ih =>
    intro l hl
    cases l with
    | nil => rw [specErrorCatalog_nil]; exact List.nodup_nil
    | cons e rest =>
      rw [List.length_cons, Nat.succ_le_succ_iff] at hl
      cases hc : e.code with
      | none =>
        rw [specErrorCatalog_cons_none _ hc]
        exact ih rest hl
      | some c =>
        rw [specErrorCatalog_cons_some _ hc, List.map_cons]
        rw [List.nodup_cons]
        constructor
        · intro hmem
          obtain ⟨x, hx, hx1⟩ := List.mem_map.mp hmem
          obtain ⟨e', he', hce'⟩ := specErrorCatalog_mem_code
            (rest.filter (fun x => x.code ≠ some c)).length _ le_rfl x hx
          have := (List.mem_filter.mp he').2
          rw [hx1] at hce'
          simp [hce'] at this
        · exact ih _ (le_trans (List.length_filter_le _ _) hl)

/-- C6: in both generators the error catalog is exactly the
specification's first-occurrence-wins catalog over the flattened
method-then-declaration error sequence — one entry per distinct numeric
code, carrying the first-seen message — and two methods declaring code
`404` with messages `"Not Found"` and `"Missing"` yield exactly the single
entry `(404, "Not Found")`. -/
theorem c6_error_dedup_first_wins (goMs : List GoProcessed)
    (tsMs : List TSProcessed) :
    (goProcessErrors goMs).map (fun e => (e.code, e.message))
      = specErrorCatalog (goMs.flatMap (fun m => m.errors))
    ∧ (tsProcessErrors tsMs).map (fun e => (e.code, e.message))
      = specErrorCatalog (tsMs.flatMap (fun m => m.errors))
    ∧ ((goProcessErrors goMs).map (fun e => e.code)).Nodup
    ∧ (goProcessErrors dupErrorMethodsGo).map (fun e => (e.code, e.message))
      = [((404 : Int), "Not Found")] := by
  have hgo : (goProcessErrors goMs).map (fun e => (e.code, e.message))
      = specErrorCatalog (goMs.flatMap (fun m => m.errors)) := by
    rw [goProcessErrors,
      foldl_errors_flatMap goErrorStep (fun m : GoProcessed => m.errors)]
    have h := goErrorFold_spec
      (goMs.flatMap (fun m : GoProcessed => m.errors)) []
    simp only [List.map_nil, List.nil_append, List.any_nil,
      Bool.not_false] at h
    have hid : (goMs.flatMap (fun m : GoProcessed => m.errors)).filter
        (fun e => match e.code with
          | some _ => true
          | none => true)
        = goMs.flatMap (fun m : GoProcessed => m.errors) := by
      apply List.filter_eq_self.mpr
      intro x _
      cases hx : x.code <;> simp [hx]
    rw [hid] at h
    rw [List.map_map]
    exact h
  refine ⟨hgo, ?_, ?_, ?_⟩
  · rw [tsProcessErrors,
      foldl_errors_flatMap tsErrorStep (fun m : TSProcessed => m.errors)]
    have h := tsErrorFold_spec
      (tsMs.flatMap (fun m : TSProcessed => m.errors)) []
    simp only [List.map_nil, List.nil_append, List.any_nil,
      Bool.not_false] at h
    have hid : (tsMs.flatMap (fun m : TSProcessed => m.errors)).filter
        (fun e => match e.code with
          | some _ => true
          | none => true)
        = tsMs.flatMap (fun m : TSProcessed => m.errors) := by
      apply List.filter_eq_self.mpr
      intro x _
      cases hx : x.code <;> simp [hx]
    rw [hid] at h
    rw [List.map_map]
    exact h
  · have hmm : (goProcessErrors goMs).map (fun e => e.code)
        = ((goProcessErrors goMs).map
            (fun e => (e.code, e.message))).map (fun p => p.1) := by
      rw [List.map_map]
      rfl
    rw [hmm, hgo]
    exact specErrorCatalog_codes_nodup _ _ le_rfl
  · decide

theorem foldl_filter_isSome {β : Type} (step : β → ErrorInfo → β)
    (hnone : ∀ acc e, e.code = none → step acc e = acc) :
    ∀ (errs : List ErrorInfo) (acc : β),
    (errs.filter (fun e => e.code.isSome)).foldl step acc
      = errs.foldl step acc := by
  intro errs
  induction errs with
  | nil => intro acc; rfl
  | cons e rest ih =>
    intro acc
    cases hc : e.code with
    | none =>
      rw [List.filter_cons_of_neg (by simp [hc]), List.foldl_cons,
        hnone acc e hc]
      exact ih acc
    | some c =>
      rw [List.filter_cons_of_pos (by simp [hc]), List.foldl_cons,
        List.foldl_cons]
      exact ih _

theorem goErrorFold_mem : ∀ (errs : List ErrorInfo)
    (acc : List (Int × GoErrorEntry)) (p : Int × GoErrorEntry),
    p ∈ errs.foldl goErrorStep acc →
    p ∈ acc ∨ ∃ e ∈ errs, e.code = some p.1 := by
  intro errs
  induction errs with
  | nil => exact fun acc p hp => Or.inl hp
  | cons e rest ih =>
    intro acc p hp
    rw [List.foldl_cons] at hp
    rcases ih _ p hp with hp' | ⟨e', he', hc'⟩
    · cases hc : e.code with
      | none =>
        rw [show goErrorStep acc e = acc by simp [goErrorStep, hc]] at hp'
        exact Or.inl hp'
      | some c =>
        by_cases hseen : (acc.any fun q => q.1 = c) = true
        · rw [show goErrorStep acc e = acc by
            simp [goErrorStep, hc, hseen]] at hp'
          exact Or.inl hp'
        · rw [show goErrorStep acc e = acc ++
            [(c, GoErrorEntry.mk c e.message (errorToStructName c e.message))]
            by simp [goErrorStep, hc, hseen]] at hp'
          rcases List.mem_append.mp hp' with hp'' | hp''
          · exact Or.inl hp''
          · simp only [List.mem_singleton] at hp''
            subst hp''
            exact Or.inr ⟨e, List.mem_cons_self _ _, hc⟩
    · exact Or.inr ⟨e', List.mem_cons_of_mem _ he', hc'⟩

theorem goErrorFold_code_inv : ∀ (errs : List ErrorInfo)
    (acc : List (Int × GoErrorEntry)),
    (∀ p ∈ acc, p.2.code = p.1) →
    ∀ p ∈ errs.foldl goErrorStep acc, p.2.code = p.1 := by
  intro errs
  induction errs with
  | nil => exact fun acc h => h
  | cons e rest ih =>
    intro acc h
    rw [List.foldl_cons]
    apply ih
    intro p hp
    cases hc : e.code with
    | none =>
      rw [show goErrorStep acc e = acc by simp [goErrorStep, hc]] at hp
      exact h p hp
    | some c =>
      by_cases hseen : (acc.any fun q => q.1 = c) = true
      · rw [show goErrorStep acc e = acc by
          simp [goErrorStep, hc, hseen]] at hp
        exact h p hp
      · rw [show goErrorStep acc e = acc ++
          [(c, GoErrorEntry.mk c e.message (errorToStructName c e.message))]
          by simp [goErrorStep, hc, hseen]] at hp
        rcases List.mem_append.mp hp with hp' | hp'
        · exact h p hp'
        · simp only [List.mem_singleton] at hp'
          subst hp'
          rfl

/-- C10: errors whose numeric code is absent are silently skipped by the
error-catalog builders — filtering them out of every method leaves both
catalogs unchanged, every catalog entry's code originates from an error
with a present code — and an unresolvable error `$ref` parses to an entry
with `code = None` (and so contributes nothing) instead of aborting. -/
theorem c10_null_code_errors_skipped (goMs : List GoProcessed)
    (tsMs : List TSProcessed) (compErrs : List (String × ErrorDefRaw))
    (r : String) :
    goProcessErrors (goMs.map (fun m =>
      { m with errors := m.errors.filter (fun e => e.code.isSome) }))
      = goProcessErrors goMs
    ∧ tsProcessErrors (tsMs.map (fun m =>
      { m with errors := m.errors.filter (fun e => e.code.isSome) }))
      = tsProcessErrors tsMs
    ∧ (∀ en ∈ goProcessErrors goMs,
        ∃ e ∈ goMs.flatMap (fun m : GoProcessed => m.errors),
          e.code = some en.code)
    ∧ (lookupStr compErrs (lastPathSegment r) = none →
        parseErrors compErrs [RawError.ref r] = [⟨none, "", none⟩]) := by
  refine ⟨?_, ?_, ?_, ?_⟩
  · rw [goProcessErrors, goProcessErrors]
    congr 1
    have main : ∀ (ms : List GoProcessed) (acc : List (Int × GoErrorEntry)),
        (ms.map (fun m =>
          { m with errors := m.errors.filter (fun e => e.code.isSome) })).foldl
            (fun a m => m.errors.foldl goErrorStep a) acc
        = ms.foldl (fun a m => m.errors.foldl goErrorStep a) acc := by
      intro ms
      induction ms with
      | nil => intro acc; rfl
      | cons m rest ih =>
        intro acc
        simp only [List.map_cons, List.foldl_cons]
        rw [foldl_filter_isSome goErrorStep
          (fun acc e hc => by simp [goErrorStep, hc])]
        exact ih _
    exact main goMs []
  · rw [tsProcessErrors, tsProcessErrors]
    congr 1
    have main : ∀ (ms : List TSProcessed) (acc : List (Int × TSErrorEntry)),
        (ms.map (fun m =>
          { m with errors := m.errors.filter (fun e => e.code.isSome) })).foldl
            (fun a m => m.errors.foldl tsErrorStep a) acc
        = ms.foldl (fun a m => m.errors.foldl tsErrorStep a) acc := by
      intro ms
      induction ms with
      | nil => intro acc; rfl
      | cons m rest ih =>
        intro acc
        simp only [List.map_cons, List.foldl_cons]
        rw [foldl_filter_isSome tsErrorStep
          (fun acc e hc => by simp [tsErrorStep, hc])]
        exact ih _
    exact main tsMs []
  · intro en hen
    rw [goProcessErrors,
      foldl_errors_flatMap goErrorStep (fun m : GoProcessed => m.errors)]
      at hen
    obtain ⟨p, hp, rfl⟩ := List.mem_map.mp hen
    have hcode := goErrorFold_code_inv _ []
      (fun q hq => absurd hq (List.not_mem_nil q)) p hp
    rcases goErrorFold_mem _ [] p hp with hp' | ⟨e, he, hc⟩
    · exact absurd hp' (List.not_mem_nil p)
    · exact ⟨e, he, by rw [hc, hcode]⟩
  · intro hl
    rw [parseErrors]
    simp only [List.map_cons, List.map_nil]
    rw [resolveErrorRef]
    by_cases hpre : strStartsWith r "#/components/errors/" = true
    · rw [if_pos hpre, hl]
      rfl
    · rw [if_neg hpre]
      rfl

/-- C10 witness: the skip behavior at a concrete unresolvable error `$ref`
and a concrete catalog entry originating from a coded error. -/
theorem c10_witness :
    parseErrors [] [RawError.ref "#/components/errors/Nope"]
      = [⟨none, "", none⟩]
    ∧ ∃ e ∈ dupErrorMethodsGo.flatMap (fun m : GoProcessed => m.errors),
        e.code = some 404 := by
  have h := c10_null_code_errors_skipped dupErrorMethodsGo [] []
    "#/components/errors/Nope"
  refine ⟨h.2.2.2 rfl, ?_⟩
  exact h.2.2.1 ⟨404, "Not Found", "NotFoundError"⟩ (by decide)

/-- C9: a method with no `result` is processed as a notification by both
generators — it is flagged `is_notification`, the Go reply type stays
`None` (`reply_is_alias = false`), the TypeScript result type is `"void"`,
and the converter state after processing the whole method is exactly the
state after processing its parameters (the result block registers
nothing). -/
theorem c9_notification (schemas : List (String × Schema)) (fuel : Nat)
    (gst gst' : GoState) (tst tst' : TSState) (m : MethodInfo)
    (pmG : GoProcessed) (pmT : TSProcessed)
    (hres : m.result = none)
    (hgo : goProcessMethod schemas fuel gst m = some (gst', pmG))
    (hts : tsProcessMethod schemas fuel tst m = some (tst', pmT)) :
    pmG.is_notification = true
    ∧ pmG.reply_inline_type = none
    ∧ pmG.reply_is_alias = false
    ∧ goBuildArgsFields (goConvert schemas fuel) gst m.params
        (m.param_structure = "by-position") (some pmG.args_type)
      = some (gst', pmG.args_fields)
    ∧ pmT.is_notification = true
    ∧ pmT.result_type = "void"
    ∧ tsParamsStep schemas fuel tst m
      = some (tst', (pmT.params_type, pmT.params_interface_name)) := by
  rcases hns : extractNamespace m.name with ⟨ns, suffix⟩
  rw [goProcessMethod, hns] at hgo
  simp only [hres] at hgo
  cases hargs : goBuildArgsFields (goConvert schemas fuel) gst m.params
      (decide (m.param_structure = "by-position"))
      (some (namespaceToService ns ++ suffixToGoMethod suffix ++ "Args")) with
  | none =>
    rw [hargs] at hgo
    exact absurd hgo (by simp)
  | some stf =>
    obtain ⟨st1, af⟩ := stf
    rw [hargs] at hgo
    simp only [goReplyBlock, Option.isNone_none] at hgo
    have hG := Option.some.inj hgo
    rw [Prod.mk.injEq] at hG
    obtain ⟨h1, h2⟩ := hG
    subst h1
    subst h2
    rw [tsProcessMethod] at hts
    cases hps : tsParamsStep schemas fuel tst m with
    | none =>
      rw [hps] at hts
      exact absurd hts (by simp)
    | some stp =>
      obtain ⟨st2, pt, pin⟩ := stp
      rw [hps] at hts
      simp only [hres, Option.isNone_none] at hts
      have hT := Option.some.inj hts
      rw [Prod.mk.injEq] at hT
      obtain ⟨h3, h4⟩ := hT
      subst h3
      subst h4
      refine ⟨rfl, rfl, rfl, hargs, rfl, rfl, ?_⟩
      rfl

/-- C9 witness: the notification facts at the concrete `log.write` method
(no `result` key, one required string parameter). -/
theorem c9_witness :
    notifyMethod.result = none
    ∧ (match goProcessMethod [] 2 GoState.initial notifyMethod with
       | some (_, pm) => pm.is_notification = true
         ∧ pm.reply_inline_type = none ∧ pm.reply_is_alias = false
       | none => False)
    ∧ (match tsProcessMethod [] 2 TSState.initial notifyMethod with
       | some (_, pm) => pm.is_notification = true ∧ pm.result_type = "void"
       | none => False) := by
  have hgo0 : (goProcessMethod [] 2 GoState.initial notifyMethod).isSome
      = true := rfl
  have hts0 : (tsProcessMethod [] 2 TSState.initial notifyMethod).isSome
      = true := rfl
  obtain ⟨⟨gst', pmG⟩, hgo⟩ := Option.isSome_iff_exists.mp hgo0
  obtain ⟨⟨tst', pmT⟩, hts⟩ := Option.isSome_iff_exists.mp hts0
  have h := c9_notification [] 2 GoState.initial gst' TSState.initial tst'
    notifyMethod pmG pmT rfl hgo hts
  rw [hgo, hts]
  exact ⟨rfl, ⟨h.1, h.2.1, h.2.2.1⟩, ⟨h.2.2.2.2.1, h.2.2.2.2.2.1⟩⟩

theorem isSimpleScalar_elim {s : Schema} (h : isSimpleScalar s = true) :
    s.ref = none ∧ s.enumVals = none ∧
    (s.typ = some "string" ∨ s.typ = some "integer" ∨
     s.typ = some "number" ∨ s.typ = some "boolean") := by
  simp only [isSimpleScalar, Bool.and_eq_true, Bool.or_eq_true,
    beq_iff_eq, Option.isNone_iff_eq_none] at h
  tauto

theorem isSimpleScalar_not_empty {s : Schema} (h : isSimpleScalar s = true) :
    s.isEmptyDict = false := by
  obtain ⟨_, _, htyp⟩ := isSimpleScalar_elim h
  rcases htyp with h' | h' | h' | h' <;>
    simp [Schema.isEmptyDict, h']

theorem tsConvert_scalar (schemas : List (String × Schema)) (n : Nat)
    (st : TSState) (s : Schema) (h : isSimpleScalar s = true) :
    tsConvert schemas (n + 1) st s none = some (st, tsPrimOf s) := by
  obtain ⟨href, henum, htyp⟩ := isSimpleScalar_elim h
  have hempty := isSimpleScalar_not_empty h
  rcases htyp with h' | h' | h' | h' <;>
    simp [tsConvert, hempty, href, h', tsPrimOf, tsConvertString,
      tsConvertNumber, henum]

theorem goConvert_scalar (schemas : List (String × Schema)) (n : Nat)
    (st : GoState) (s : Schema) (h : isSimpleScalar s = true) :
    goConvert schemas (n + 1) st s none = some (st, goPrimOf s) := by
  obtain ⟨href, henum, htyp⟩ := isSimpleScalar_elim h
  have hempty := isSimpleScalar_not_empty h
  rcases htyp with h' | h' | h' | h' <;>
    simp [goConvert, hempty, href, h', goPrimOf, goConvertString, henum]

theorem goPrimOf_not_nilable {s : Schema} (h : isSimpleScalar s = true) :
    goTypeIsNilable (goPrimOf s) = false := by
  obtain ⟨_, _, htyp⟩ := isSimpleScalar_elim h
  rcases htyp with h' | h' | h' | h' <;> simp [goPrimOf, h'] <;> decide

theorem tsPositionalSlots_scalar (schemas : List (String × Schema)) (n : Nat)
    (st : TSState) :
    ∀ params : List ParamInfo,
    (∀ p ∈ params, isSimpleScalar p.schema = true) →
    tsPositionalSlots (fun st s => tsConvert schemas (n + 1) st s none) st
      params
      = some (st, params.map (fun p => tsPrimOf p.schema ++
          (if p.required then "" else " | undefined"))) := by
  intro params
  induction params with
  | nil => intro _; rfl
  | cons p rest ih =>
    intro h
    simp only [tsPositionalSlots,
      tsConvert_scalar schemas n st p.schema (h p (List.mem_cons_self _ _)),
      ih (fun q hq => h q (List.mem_cons_of_mem _ hq)), List.map_cons]
    cases hreq : p.required <;> simp [hreq]

theorem goFieldGoType_scalar (schemas : List (String × Schema)) (n : Nat)
    (st : GoState) (s : Schema) (gn : String) (atn : Option String)
    (h : isSimpleScalar s = true) :
    goFieldGoType (goConvert schemas (n + 1)) st s gn atn
      = some (st, goPrimOf s) := by
  obtain ⟨href, henum, htyp⟩ := isSimpleScalar_elim h
  have hconv := goConvert_scalar schemas n st s h
  cases atn with
  | none => simpa [goFieldGoType] using hconv
  | some ptn =>
    by_cases hptn : ptn = ""
    · simpa [goFieldGoType, hptn] using hconv
    · rcases htyp with h' | h' | h' | h' <;>
        simp [goFieldGoType, hptn, h', hconv]

theorem goBuildArgsFields_scalar (schemas : List (String × Schema)) (n : Nat)
    (st : GoState) (ispos : Bool) (atn : Option String) :
    ∀ params : List ParamInfo,
    (∀ p ∈ params, isSimpleScalar p.schema = true) →
    goBuildArgsFields (goConvert schemas (n + 1)) st params ispos atn
      = some (st, params.map (fun p =>
          { json_name := p.name, go_name := goFieldName p.name,
            go_type := if p.required then goPrimOf p.schema
              else "*" ++ goPrimOf p.schema,
            required := p.required,
            tag := "`json:\"" ++ p.name ++
              (if p.required then "" else ",omitempty") ++ "\"`",
            description := p.description })) := by
  intro params
  induction params with
  | nil => intro _; rfl
  | cons p rest ih =>
    intro h
    have hp := h p (List.mem_cons_self _ _)
    simp only [goBuildArgsFields,
      goFieldGoType_scalar schemas n st p.schema (goFieldName p.name) atn hp,
      ih (fun q hq => h q (List.mem_cons_of_mem _ hq)), List.map_cons]
    have hnil := goPrimOf_not_nilable hp
    cases hreq : p.required <;> simp [hreq, hnil]

/-- C8: for a `by-position` method whose parameters are scalar-typed, the
TypeScript generator produces a fixed-order tuple type with exactly one
slot per declared parameter, appending `" | undefined"` to every optional
slot; the Go generator produces the args fields in declaration order, with
every optional scalar parameter's type wrapped as a pointer (`*T`) and
tagged `,omitempty`. -/
theorem c8_positional_params (schemas : List (String × Schema)) (n : Nat)
    (tst : TSState) (gst : GoState) (m : MethodInfo) (argsName : String)
    (hpos : m.param_structure = "by-position")
    (hne : m.params.isEmpty = false)
    (hscalar : ∀ p ∈ m.params, isSimpleScalar p.schema = true) :
    tsParamsStep schemas (n + 1) tst m
      = some (tst, (some ("[" ++ String.intercalate ", "
          (m.params.map (fun p => tsPrimOf p.schema ++
            (if p.required then "" else " | undefined"))) ++ "]"), none))
    ∧ goBuildArgsFields (goConvert schemas (n + 1)) gst m.params true
        (some argsName)
      = some (gst, m.params.map (fun p =>
          { json_name := p.name, go_name := goFieldName p.name,
            go_type := if p.required then goPrimOf p.schema
              else "*" ++ goPrimOf p.schema,
            required := p.required,
            tag := "`json:\"" ++ p.name ++
              (if p.required then "" else ",omitempty") ++ "\"`",
            description := p.description })) := by
  constructor
  · simp only [tsParamsStep, hne, hpos,
      tsPositionalSlots_scalar schemas n tst m.params hscalar]
    simp
  · exact goBuildArgsFields_scalar schemas n gst true (some argsName)
      m.params hscalar

/-- C8 witness: the spec's positional example — one required string
parameter and one optional integer parameter — yields the two-slot tuple
`[string, number | undefined]` in TypeScript and the fields
`Name string` / `Count *int64` in Go. -/
theorem c8_witness :
    tsParamsStep [] 2 TSState.initial positionalMethod
      = some (TSState.initial, (some "[string, number | undefined]", none))
    ∧ goBuildArgsFields (goConvert [] 2) GoState.initial
        positionalMethod.params true (some "ItemServiceTagArgs")
      = some (GoState.initial,
          [{ json_name := "name", go_name := "Name", go_type := "string",
             required := true, tag := "`json:\"name\"`", description := "" },
           { json_name := "count", go_name := "Count", go_type := "*int64",
             required := false, tag := "`json:\"count,omitempty\"`",
             description := "" }]) := by
  have h := c8_positional_params [] 1 TSState.initial GoState.initial
    positionalMethod "ItemServiceTagArgs" rfl rfl (by decide)
  exact ⟨h.1.trans (by decide), h.2.trans (by decide)⟩

theorem lookupStr_append {α : Type} (a b : List (String × α)) (k : String) :
    lookupStr (a ++ b) k
      = match lookupStr a k with
        | some v => some v
        | none => lookupStr b k := by
  induction a with
  | nil => simp [lookupStr]
  | cons p rest ih =>
    obtain ⟨p1, p2⟩ := p
    simp only [List.cons_append, lookupStr]
    by_cases hk : p1 = k
    · rw [if_pos hk, if_pos hk]
    · rw [if_neg hk, if_neg hk]
      exact ih

theorem lookupStr_map_overwrite {α : Type} {k : String} {v : α} :
    ∀ (d : List (String × α)) (k' : String),
    lookupStr (d.map (fun p => if p.1 = k then (k, v) else p)) k'
      = if k' = k then (if hasKey d k then some v else none)
        else lookupStr d k' := by
  intro d
  induction d with
  | nil =>
    intro k'
    by_cases h : k' = k <;> simp [lookupStr, hasKey, h]
  | cons p rest ih =>
    intro k'
    obtain ⟨p1, p2⟩ := p
    simp only [List.map_cons]
    by_cases hp : p1 = k
    · subst hp
      rw [if_pos rfl]
      simp only [lookupStr, hasKey]
      by_cases hk' : p1 = k'
      · subst hk'
        simp [lookupStr, hasKey]
      · rw [if_neg hk', if_neg hk', ih k',
          if_neg (fun hc => hk' hc.symm), if_neg (fun hc => hk' hc.symm)]
    · rw [if_neg hp]
      simp only [lookupStr]
      by_cases hpk' : p1 = k'
      · rw [if_pos hpk', if_pos hpk',
          if_neg (fun hc : k' = k => hp (hpk'.trans hc))]
      · rw [if_neg hpk', if_neg hpk', ih k']
        by_cases hk'k : k' = k
        · subst hk'k
          rw [if_pos rfl, if_pos rfl]
          have hkk : hasKey ((p1, p2) :: rest) k' = hasKey rest k' := by
            simp only [hasKey, lookupStr]
            rw [if_neg hpk']
          rw [hkk]
        · rw [if_neg hk'k, if_neg hk'k]

theorem lookupStr_dictInsert {α : Type} (d : List (String × α)) (k : String)
    (v : α) (k' : String) :
    lookupStr (dictInsert d k v) k'
      = if k' = k then some v else lookupStr d k' := by
  rw [dictInsert]
  by_cases hk : hasKey d k
  · rw [if_pos hk, lookupStr_map_overwrite, if_pos hk]
  · rw [if_neg hk, lookupStr_append]
    by_cases hk' : k' = k
    · subst hk'
      have hnone : lookupStr d k' = none := by
        cases h : lookupStr d k' with
        | none => rfl
        | some w => exact absurd (by simp [hasKey, h]) hk
      rw [hnone]
      simp [lookupStr]
    · cases h : lookupStr d k' with
      | none =>
        rw [if_neg hk']
        simp only [lookupStr]
        rw [if_neg (fun hc : k = k' => hk' hc.symm)]
      | some w =>
        rw [if_neg hk']

theorem lookupStr_dictUpdate {α : Type} (d2 : List (String × α)) :
    ∀ (d : List (String × α)) (k : String),
    lookupStr (dictUpdate d d2) k
      = match lastLookup d2 k with
        | some v => some v
        | none => lookupStr d k := by
  induction d2 with
  | nil => intro d k; simp [dictUpdate, lastLookup, lookupStr]
  | cons p rest ih =>
    intro d k
    rw [show dictUpdate d (p :: rest) = dictUpdate (dictInsert d p.1 p.2) rest
      from rfl]
    rw [ih]
    have hlast : lastLookup (p :: rest) k
        = match lastLookup rest k with
          | some v => some v
          | none => if p.1 = k then some p.2 else none := by
      rw [lastLookup, List.reverse_cons, lookupStr_append, lastLookup]
      cases lookupStr rest.reverse k <;> simp [lookupStr]
    rw [hlast, lookupStr_dictInsert]
    cases lastLookup rest k with
    | some v => rfl
    | none =>
      by_cases hk : p.1 = k
      · rw [if_pos hk, if_pos hk.symm]
      · rw [if_neg hk, if_neg (fun hc : k = p.1 => hk hc.symm)]

theorem lookupStr_mergeFold (branches : List Schema) :
    ∀ (acc : List (String × Schema)) (k : String),
    lookupStr (branches.foldl
        (fun a b => dictUpdate a (b.properties.getD [])) acc) k
      = match specMergedLookup branches k with
        | some v => some v
        | none => lookupStr acc k := by
  induction branches with
  | nil => intro acc k; simp [specMergedLookup]
  | cons b rest ih =>
    intro acc k
    rw [List.foldl_cons, ih]
    have hspec : specMergedLookup (b :: rest) k
        = match specMergedLookup rest k with
          | some v => some v
          | none => lastLookup (b.properties.getD []) k := by
      rw [specMergedLookup, List.reverse_cons, List.findSome?_append,
        specMergedLookup]
      cases rest.reverse.findSome?
          (fun b => lastLookup (b.properties.getD []) k) with
      | some v => simp [Option.or]
      | none =>
        simp only [Option.or]
        cases h : lastLookup (b.properties.getD []) k <;>
          simp [List.findSome?, h]
    rw [hspec, lookupStr_dictUpdate]
    cases specMergedLookup rest k <;> cases lastLookup (b.properties.getD []) k
      <;> rfl

theorem mem_setInsert (s : List String) (y x : String) :
    x ∈ setInsert s y ↔ x = y ∨ x ∈ s := by
  rw [setInsert]
  by_cases hy : s.contains y
  · rw [if_pos hy]
    constructor
    · exact Or.inr
    · rintro (rfl | hx)
      · exact List.elem_iff.mp hy
      · exact hx
  · rw [if_neg hy]
    simp [or_comm]

theorem mem_setUnion (xs : List String) :
    ∀ (s : List String) (x : String),
    x ∈ setUnion s xs ↔ x ∈ s ∨ x ∈ xs := by
  induction xs with
  | nil => intro s x; simp [setUnion]
  | cons y ys ih =>
    intro s x
    rw [show setUnion s (y :: ys) = setUnion (setInsert s y) ys from rfl, ih,
      mem_setInsert]
    simp [or_comm, or_assoc]
    tauto

theorem mem_requiredFold (branches : List Schema) :
    ∀ (acc : List String) (x : String),
    x ∈ branches.foldl (fun a b => setUnion a (b.required.getD [])) acc
      ↔ x ∈ acc ∨ ∃ b ∈ branches, x ∈ b.required.getD [] := by
  induction branches with
  | nil => intro acc x; simp
  | cons b rest ih =>
    intro acc x
    rw [List.foldl_cons, ih, mem_setUnion]
    constructor
    · rintro ((hx | hx) | ⟨b', hb', hx⟩)
      · exact Or.inl hx
      · exact Or.inr ⟨b, List.mem_cons_self _ _, hx⟩
      · exact Or.inr ⟨b', List.mem_cons_of_mem _ hb', hx⟩
    · rintro (hx | ⟨b', hb', hx⟩)
      · exact Or.inl (Or.inl hx)
      · rcases List.mem_cons.mp hb' with rfl | hb''
        · exact Or.inl (Or.inr hx)
        · exact Or.inr ⟨b', hb'', hx⟩

theorem goAllOfMerge_ref (schemas : List (String × Schema))
    (convH : GoState → Schema → Option String → Option (GoState × String)) :
    ∀ (bs : List Schema) (mp : List (String × Schema)) (mr : List String)
      (st st' : GoState)
      (r : Option (List (String × Schema) × List String)),
    (∃ b ∈ bs, b.ref.isSome = true) →
    goAllOfMerge schemas convH st bs mp mr = some (st', r) → r = none := by
  intro bs
  induction bs with
  | nil =>
    rintro mp mr st st' r ⟨b, hb, _⟩ _
    exact absurd hb (List.not_mem_nil b)
  | cons b rest ih =>
    rintro mp mr st st' r ⟨b', hb', hsome⟩ heq
    rw [goAllOfMerge] at heq
    cases hb : b.ref with
    | some r0 =>
      simp only [hb] at heq
      cases hres : goResolveRef schemas convH st r0 with
      | none =>
        rw [hres] at heq
        exact absurd heq (by simp)
      | some p =>
        obtain ⟨st'', _⟩ := p
        rw [hres] at heq
        have := Option.some.inj heq
        exact (congrArg Prod.snd this).symm
    | none =>
      simp only [hb] at heq
      rcases List.mem_cons.mp hb' with rfl | hb''
      · rw [hb] at hsome
        exact absurd hsome (by simp)
      · exact ih _ _ st st' r ⟨b', hb'', hsome⟩ heq

theorem goAllOfMerge_no_ref (schemas : List (String × Schema))
    (convH : GoState → Schema → Option String → Option (GoState × String))
    (st : GoState) :
    ∀ (bs : List Schema) (mp : List (String × Schema)) (mr : List String),
    (∀ b ∈ bs, b.ref = none) →
    goAllOfMerge schemas convH st bs mp mr
      = some (st, some
          (bs.foldl (fun a b => dictUpdate a (b.properties.getD [])) mp,
           bs.foldl (fun a b => setUnion a (b.required.getD [])) mr)) := by
  intro bs
  induction bs with
  | nil => intro mp mr _; rfl
  | cons b rest ih =>
    intro mp mr h
    rw [goAllOfMerge]
    simp only [h b (List.mem_cons_self _ _), List.foldl_cons]
    exact ih _ _ (fun b' hb' => h b' (List.mem_cons_of_mem _ hb'))

/-- C2 counterexample: the TypeScript converter does not merge `allOf`
branches into one synthetic object, nor does it degrade to `any` when a
branch is a `$ref` — it joins the branch conversions with `" & "` and
follows references normally. -/
theorem c2_counterexample :
    tsConvert [("A", Schema.obj [("x", Schema.prim "string")] [])] 5
      TSState.initial
      (Schema.allOfS [Schema.refTo "#/components/schemas/A"]) none
      = some (⟨["A"], ["export interface A \x7b\n  x?: string;\n\x7d"]⟩, "A")
    ∧ "A" ≠ "any"
    ∧ tsConvert [] 5 TSState.initial
        (Schema.allOfS [Schema.obj [("a", Schema.prim "string")] [],
                        Schema.obj [("b", Schema.prim "number")] []]) none
      = some (TSState.initial,
          "\x7b\n  a?: string;\n\x7d & \x7b\n  b?: number;\n\x7d")
    ∧ tsConvert [] 5 TSState.initial
        (Schema.obj [("a", Schema.prim "string"),
                     ("b", Schema.prim "number")] []) none
      = some (TSState.initial, "\x7b\n  a?: string;\n  b?: number;\n\x7d")
    ∧ "\x7b\n  a?: string;\n\x7d & \x7b\n  b?: number;\n\x7d"
      ≠ "\x7b\n  a?: string;\n  b?: number;\n\x7d" := by decide

/-- C2 (amended): the Go converter implements the claimed `allOf`
semantics — with no `$ref` branch it merges all branches' properties
(later branches overwriting earlier ones on key collision; the merged
value at a key is the last branch's value) and unions the `required`
sets, then converts the resulting synthetic object schema; any `$ref`
branch makes the whole composite return `interface\x7b\x7d`. The
TypeScript converter instead converts every branch independently and
joins the results with `" & "`, resolving `$ref` branches normally. -/
theorem c2_allof_behavior (schemas : List (String × Schema)) (n : Nat)
    (gst : GoState) (branches : List Schema) (tn : Option String) :
    ((∃ b ∈ branches, b.ref.isSome = true) →
      ∀ st' out, goConvert schemas (n + 1) gst (Schema.allOfS branches) tn
          = some (st', out) → out = "interface\x7b\x7d")
    ∧ ((∀ b ∈ branches, b.ref = none) →
        goAllOfMerge schemas (goConvert schemas n) gst branches [] []
          = some (gst, some
              (branches.foldl
                (fun a b => dictUpdate a (b.properties.getD [])) [],
               branches.foldl
                (fun a b => setUnion a (b.required.getD [])) []))
        ∧ (∀ k, lookupStr (branches.foldl
              (fun a b => dictUpdate a (b.properties.getD [])) []) k
            = specMergedLookup branches k)
        ∧ (∀ x, x ∈ branches.foldl
              (fun a b => setUnion a (b.required.getD [])) []
            ↔ ∃ b ∈ branches, x ∈ b.required.getD [])
        ∧ goConvert schemas (n + 1) gst (Schema.allOfS branches) tn
          = (if (branches.foldl
                (fun a b => dictUpdate a (b.properties.getD [])) []).isEmpty
             then some (gst, "interface\x7b\x7d")
             else goConvertObject (goConvert schemas n) gst
               (Schema.mk (some "object") none
                 (some (branches.foldl
                   (fun a b => dictUpdate a (b.properties.getD [])) []))
                 (some (branches.foldl
                   (fun a b => setUnion a (b.required.getD [])) []))
                 none .tru none none none none) tn))
    ∧ (∀ tst : TSState,
        tsConvert schemas (n + 1) tst (Schema.allOfS branches) none
          = (match convSchemaList
              (fun st s => tsConvert schemas n st s none) tst branches with
             | none => none
             | some (st', types) =>
               some (st', String.intercalate " & " types))) := by
  have hdispatch : goConvert schemas (n + 1) gst (Schema.allOfS branches) tn
      = goConvertAllOf schemas (goConvert schemas n) gst branches tn := by
    simp [goConvert, Schema.allOfS, Schema.isEmptyDict, Schema.typ,
      Schema.ref, Schema.oneOf, Schema.anyOf, Schema.allOf]
  refine ⟨?_, ?_, ?_⟩
  · intro hex st' out heq
    rw [hdispatch, goConvertAllOf] at heq
    cases hmerge : goAllOfMerge schemas (goConvert schemas n) gst
        branches [] [] with
    | none =>
      rw [hmerge] at heq
      exact absurd heq (by simp)
    | some p =>
      obtain ⟨stm, r⟩ := p
      have hr := goAllOfMerge_ref schemas (goConvert schemas n)
        branches [] [] gst stm r hex hmerge
      subst hr
      rw [hmerge] at heq
      exact (Option.some.inj heq ▸ rfl :
        (stm, "interface\x7b\x7d").2 = out) ▸ rfl
  · intro hnoref
    have hmerge := goAllOfMerge_no_ref schemas (goConvert schemas n) gst
      branches [] [] hnoref
    refine ⟨hmerge, ?_, ?_, ?_⟩
    · intro k
      rw [lookupStr_mergeFold]
      cases specMergedLookup branches k <;> rfl
    · intro x
      rw [mem_requiredFold]
      simp
    · rw [hdispatch, goConvertAllOf, hmerge]
  · intro tst
    simp [tsConvert, Schema.allOfS, Schema.isEmptyDict, Schema.typ,
      Schema.ref, Schema.oneOf, Schema.anyOf, Schema.allOf]

/-- C2 witness: the amended `allOf` behavior at concrete composite
schemas. -/
theorem c2_witness :
    (∀ st' out,
      goConvert [("A", Schema.obj [("x", Schema.prim "string")] [])] 5
        GoState.initial
        (Schema.allOfS [Schema.refTo "#/components/schemas/A"]) none
        = some (st', out) → out = "interface\x7b\x7d")
    ∧ (∀ k, lookupStr
        ([Schema.obj [("a", Schema.prim "string")] [],
          Schema.obj [("a", Schema.prim "number"),
                      ("b", Schema.prim "boolean")] []].foldl
          (fun a b => dictUpdate a (b.properties.getD [])) []) k
        = specMergedLookup
            [Schema.obj [("a", Schema.prim "string")] [],
             Schema.obj [("a", Schema.prim "number"),
                         ("b", Schema.prim "boolean")] []] k) := by
  constructor
  · exact (c2_allof_behavior
      [("A", Schema.obj [("x", Schema.prim "string")] [])] 4
      GoState.initial [Schema.refTo "#/components/schemas/A"] none).1
      ⟨Schema.refTo "#/components/schemas/A", by simp, rfl⟩
  · exact ((c2_allof_behavior [] 4 GoState.initial
      [Schema.obj [("a", Schema.prim "string")] [],
       Schema.obj [("a", Schema.prim "number"),
                   ("b", Schema.prim "boolean")] []] none).2.1
      (by
        intro b hb
        simp only [List.mem_cons, List.not_mem_nil, or_false] at hb
        rcases hb with rfl | rfl <;> rfl)).2.1

theorem Plain_empty : Plain Schema.empty :=
  Plain.intro none none none none .tru none
    (fun _ h => nomatch h) (fun _ h => nomatch h) (fun _ h => nomatch h)

theorem Plain_prim (t : String) : Plain (Schema.prim t) :=
  Plain.intro (some t) none none none .tru none
    (fun _ h => nomatch h) (fun _ h => nomatch h) (fun _ h => nomatch h)

/-- Destruct a `Plain` schema into facts about its accessors. -/
theorem Plain.elim {s : Schema} (hp : Plain s) :
    s.ref = none ∧ s.oneOf = none ∧ s.anyOf = none ∧ s.allOf = none
    ∧ (∀ p ∈ s.properties.getD [], Plain p.2)
    ∧ (∀ i, s.items = some i → Plain i)
    ∧ (∀ t, s.addProps = AddProps.schema t → Plain t) := by
  cases hp with
  | intro typ props req items ap ev hprops hitems hap =>
    exact ⟨rfl, rfl, rfl, rfl, hprops, hitems, hap⟩

theorem Plain_items {s : Schema} (hp : Plain s) :
    Plain (s.items.getD Schema.empty) := by
  cases hi : s.items with
  | none => exact Plain_empty
  | some it => exact hp.elim.2.2.2.2.2.1 it hi

theorem tsFieldLines_pure
    (conv : TSState → Schema → Option (TSState × String)) :
    ∀ (pl : List (String × Schema)) (required : List String),
    (∀ p ∈ pl, ∀ st st' out, conv st p.2 = some (st', out) →
      st' = st ∧ ∀ st2 : TSState, conv st2 p.2 = some (st2, out)) →
    ∀ st st' lines, tsFieldLines conv st pl required = some (st', lines) →
    st' = st ∧ ∀ st2 : TSState,
      tsFieldLines conv st2 pl required = some (st2, lines) := by
  intro pl
  induction pl with
  | nil =>
    intro required _ st st' lines heq
    rw [tsFieldLines] at heq
    have h := Option.some.inj heq
    rw [Prod.mk.injEq] at h
    obtain ⟨h1, h2⟩ := h
    exact ⟨h1.symm, fun st2 => by rw [tsFieldLines, ← h2]⟩
  | cons p rest ih =>
    intro required hconv st st' lines heq
    obtain ⟨pn, ps⟩ := p
    rw [tsFieldLines] at heq
    cases hc : conv st ps with
    | none =>
      rw [hc] at heq
      exact absurd heq (by simp)
    | some p1 =>
      obtain ⟨st1, t⟩ := p1
      simp only [hc] at heq
      obtain ⟨hst1, hind⟩ := hconv (pn, ps) (List.mem_cons_self _ _)
        st st1 t hc
      rw [hst1] at heq
      cases hrest : tsFieldLines conv st rest required with
      | none =>
        rw [hrest] at heq
        exact absurd heq (by simp)
      | some p2 =>
        obtain ⟨st2x, ls⟩ := p2
        simp only [hrest] at heq
        obtain ⟨hst2x, hind2⟩ := ih required
          (fun q hq => hconv q (List.mem_cons_of_mem _ hq)) st st2x ls hrest
        rw [hst2x] at heq
        have h := Option.some.inj heq
        rw [Prod.mk.injEq] at h
        obtain ⟨h1, h2⟩ := h
        refine ⟨h1.symm, fun stB => ?_⟩
        simp only [tsFieldLines, hind stB, hind2 stB]
        rw [← h2]

theorem convSchemaList_pure
    (conv : TSState → Schema → Option (TSState × String)) :
    ∀ (ss : List Schema),
    (∀ s0 ∈ ss, ∀ st st' out, conv st s0 = some (st', out) →
      st' = st ∧ ∀ st2 : TSState, conv st2 s0 = some (st2, out)) →
    ∀ st st' ts, convSchemaList conv st ss = some (st', ts) →
    st' = st ∧ ∀ st2 : TSState,
      convSchemaList conv st2 ss = some (st2, ts) := by
  intro ss
  induction ss with
  | nil =>
    intro _ st st' ts heq
    rw [convSchemaList] at heq
    have h := Option.some.inj heq
    rw [Prod.mk.injEq] at h
    obtain ⟨h1, h2⟩ := h
    exact ⟨h1.symm, fun st2 => by rw [convSchemaList, ← h2]⟩
  | cons s0 rest ih =>
    intro hconv st st' ts heq
    rw [convSchemaList] at heq
    cases hc : conv st s0 with
    | none =>
      rw [hc] at heq
      exact absurd heq (by simp)
    | some p1 =>
      obtain ⟨st1, t⟩ := p1
      simp only [hc] at heq
      obtain ⟨hst1, hind⟩ := hconv s0 (List.mem_cons_self _ _) st st1 t hc
      rw [hst1] at heq
      cases hrest : convSchemaList conv st rest with
      | none =>
        rw [hrest] at heq
        exact absurd heq (by simp)
      | some p2 =>
        obtain ⟨st2x, ls⟩ := p2
        simp only [hrest] at heq
        obtain ⟨hst2x, hind2⟩ := ih
          (fun q hq => hconv q (List.mem_cons_of_mem _ hq)) st st2x ls hrest
        rw [hst2x] at heq
        have h := Option.some.inj heq
        rw [Prod.mk.injEq] at h
        obtain ⟨h1, h2⟩ := h
        refine ⟨h1.symm, fun stB => ?_⟩
        simp only [convSchemaList, hind stB, hind2 stB]
        rw [← h2]

/-- State-purity and state-independence of hint-free TypeScript conversion
on plain schemas (no ref and no composite keywords anywhere inside): a
successful `tsConvert ... none` leaves the converter state unchanged and
yields the same text from any starting state. -/
theorem tsConvert_plain_pure (schemas : List (String × Schema)) :
    ∀ (n : Nat) (s : Schema), Plain s → ∀ st st' out,
    tsConvert schemas n st s none = some (st', out) →
    st' = st ∧ ∀ st2 : TSState,
      tsConvert schemas n st2 s none = some (st2, out) := by
  intro n
  induction n using Nat.strong_induction_on with
  | _ n ih =>
    intro s hp st st' out heq
    cases n with
    | zero => exact absurd heq (by simp [tsConvert])
    | succ m =>
      have ihm := ih m (Nat.lt_succ_self m)
      cases hp with
      | intro typ props req items ap ev hprops hitems hap =>
        by_cases hemp : (Schema.mk typ none props req items ap ev none none
            none).isEmptyDict = true
        · simp only [tsConvert] at heq
          rw [if_pos hemp] at heq
          have h := Option.some.inj heq
          rw [Prod.mk.injEq] at h
          obtain ⟨h1, h2⟩ := h
          refine ⟨h1.symm, fun st2 => ?_⟩
          simp only [tsConvert]
          rw [if_pos hemp, ← h2]
        · have hemp' : (Schema.mk typ none props req items ap ev none none
              none).isEmptyDict = false := by
            exact Bool.not_eq_true _ ▸ eq_false_of_ne_true hemp
          simp only [tsConvert, Schema.ref, Schema.typ, Schema.oneOf,
            Schema.anyOf, Schema.allOf, Schema.enumVals, hemp',
            Bool.false_eq_true, if_false] at heq
          split at heq
          · -- arm 1: object
            have hconv : ∀ p ∈ props.getD [], ∀ stA stA' outA,
                tsConvert schemas m stA p.2 none = some (stA', outA) →
                stA' = stA ∧ ∀ stB : TSState,
                  tsConvert schemas m stB p.2 none = some (stB, outA) :=
              fun p hpmem stA stA' outA hc =>
                ihm p.2 (hprops p hpmem) stA stA' outA hc
            simp only [tsConvertObject, Schema.properties, Schema.required,
              Schema.addProps] at heq
            split at heq
            · -- properties empty
              rename_i hpe
              split at heq
              · -- additionalProperties = tru
                have h := Option.some.inj heq
                rw [Prod.mk.injEq] at h
                obtain ⟨h1, h2⟩ := h
                refine ⟨h1.symm, fun st2 => ?_⟩
                simp only [tsConvert, Schema.ref, Schema.typ, hemp',
                  Bool.false_eq_true, if_false]
                simp only [tsConvertObject, Schema.properties,
                  Schema.required, Schema.addProps]
                rw [if_pos hpe, ← h2]
              · -- additionalProperties is a schema
                rename_i apS
                split at heq
                · exact Option.noConfusion heq
                · rename_i st1 vt hc
                  have h := Option.some.inj heq
                  rw [Prod.mk.injEq] at h
                  obtain ⟨h1, h2⟩ := h
                  obtain ⟨hst1, hind⟩ := ihm apS (hap apS rfl) st st1 vt hc
                  refine ⟨h1.symm.trans hst1, fun st2 => ?_⟩
                  simp only [tsConvert, Schema.ref, Schema.typ, hemp',
                    Bool.false_eq_true, if_false]
                  simp only [tsConvertObject, Schema.properties,
                    Schema.required, Schema.addProps]
                  rw [if_pos hpe]
                  simp only [hind st2]
                  rw [← h2]
              · -- additionalProperties = other
                have h := Option.some.inj heq
                rw [Prod.mk.injEq] at h
                obtain ⟨h1, h2⟩ := h
                refine ⟨h1.symm, fun st2 => ?_⟩
                simp only [tsConvert, Schema.ref, Schema.typ, hemp',
                  Bool.false_eq_true, if_false]
                simp only [tsConvertObject, Schema.properties,
                  Schema.required, Schema.addProps]
                rw [if_pos hpe, ← h2]
            · -- properties nonempty
              rename_i hpe
              split at heq
              · exact Option.noConfusion heq
              · rename_i st1 fields hfl
                obtain ⟨hst1, hind⟩ := tsFieldLines_pure
                  (fun st s => tsConvert schemas m st s none)
                  (props.getD []) (req.getD []) hconv st st1 fields hfl
                have h := Option.some.inj heq
                rw [Prod.mk.injEq] at h
                obtain ⟨h1, h2⟩ := h
                refine ⟨h1.symm.trans hst1, fun st2 => ?_⟩
                simp only [tsConvert, Schema.ref, Schema.typ, hemp',
                  Bool.false_eq_true, if_false]
                simp only [tsConvertObject, Schema.properties,
                  Schema.required, Schema.addProps]
                rw [if_neg hpe]
                simp only [hind st2]
                rw [← h2]
          · -- arm 2: array
            simp only [tsConvertArray, Schema.items] at heq
            split at heq
            · -- items absent
              have h := Option.some.inj heq
              rw [Prod.mk.injEq] at h
              obtain ⟨h1, h2⟩ := h
              refine ⟨h1.symm, fun st2 => ?_⟩
              simp only [tsConvert, Schema.ref, Schema.typ, hemp',
                Bool.false_eq_true, if_false]
              simp only [tsConvertArray, Schema.items]
              rw [← h2]
            · rename_i it
              split at heq
              · -- items is the empty dict
                rename_i hie
                have h := Option.some.inj heq
                rw [Prod.mk.injEq] at h
                obtain ⟨h1, h2⟩ := h
                refine ⟨h1.symm, fun st2 => ?_⟩
                simp only [tsConvert, Schema.ref, Schema.typ, hemp',
                  Bool.false_eq_true, if_false]
                simp only [tsConvertArray, Schema.items]
                rw [if_pos hie, ← h2]
              · rename_i hie
                split at heq
                · exact Option.noConfusion heq
                · rename_i st1 itemType hc
                  obtain ⟨hst1, hind⟩ := ihm it (hitems it rfl) st st1
                    itemType hc
                  split at heq
                  · rename_i hbar
                    have h := Option.some.inj heq
                    rw [Prod.mk.injEq] at h
                    obtain ⟨h1, h2⟩ := h
                    refine ⟨h1.symm.trans hst1, fun st2 => ?_⟩
                    simp only [tsConvert, Schema.ref, Schema.typ, hemp',
                      Bool.false_eq_true, if_false]
                    simp only [tsConvertArray, Schema.items]
                    rw [if_neg hie]
                    simp only [hind st2]
                    rw [if_pos hbar, ← h2]
                  · rename_i hbar
                    have h := Option.some.inj heq
                    rw [Prod.mk.injEq] at h
                    obtain ⟨h1, h2⟩ := h
                    refine ⟨h1.symm.trans hst1, fun st2 => ?_⟩
                    simp only [tsConvert, Schema.ref, Schema.typ, hemp',
                      Bool.false_eq_true, if_false]
                    simp only [tsConvertArray, Schema.items]
                    rw [if_neg hie]
                    simp only [hind st2]
                    rw [if_neg hbar, ← h2]
          · -- arm 3
            have h := Option.some.inj heq
            rw [Prod.mk.injEq] at h
            obtain ⟨h1, h2⟩ := h
            refine ⟨h1.symm, fun st2 => ?_⟩
            simp only [tsConvert, Schema.ref, Schema.typ, hemp',
              Bool.false_eq_true, if_false]
            rw [← h2]
          · -- arm 4
            have h := Option.some.inj heq
            rw [Prod.mk.injEq] at h
            obtain ⟨h1, h2⟩ := h
            refine ⟨h1.symm, fun st2 => ?_⟩
            simp only [tsConvert, Schema.ref, Schema.typ, hemp',
              Bool.false_eq_true, if_false]
            rw [← h2]
          · -- arm 5
            have h := Option.some.inj heq
            rw [Prod.mk.injEq] at h
            obtain ⟨h1, h2⟩ := h
            refine ⟨h1.symm, fun st2 => ?_⟩
            simp only [tsConvert, Schema.ref, Schema.typ, hemp',
              Bool.false_eq_true, if_false]
            rw [← h2]
          · -- arm 6
            have h := Option.some.inj heq
            rw [Prod.mk.injEq] at h
            obtain ⟨h1, h2⟩ := h
            refine ⟨h1.symm, fun st2 => ?_⟩
            simp only [tsConvert, Schema.ref, Schema.typ, hemp',
              Bool.false_eq_true, if_false]
            rw [← h2]
          · -- arm 7
            have h := Option.some.inj heq
            rw [Prod.mk.injEq] at h
            obtain ⟨h1, h2⟩ := h
            refine ⟨h1.symm, fun st2 => ?_⟩
            simp only [tsConvert, Schema.ref, Schema.typ, hemp',
              Bool.false_eq_true, if_false]
            rw [← h2]
          · -- arm 8
            cases hev : ev with
            | some vs =>
              rw [hev] at heq
              have h := Option.some.inj heq
              rw [Prod.mk.injEq] at h
              obtain ⟨h1, h2⟩ := h
              refine ⟨h1.symm, fun st2 => ?_⟩
              simp only [tsConvert, Schema.ref, Schema.typ, Schema.oneOf,
                Schema.anyOf, Schema.allOf, Schema.enumVals, hemp',
                Bool.false_eq_true, if_false]
              split <;> simp_all
            | none =>
              rw [hev] at heq
              have h := Option.some.inj heq
              rw [Prod.mk.injEq] at h
              obtain ⟨h1, h2⟩ := h
              refine ⟨h1.symm, fun st2 => ?_⟩
              simp only [tsConvert, Schema.ref, Schema.typ, Schema.oneOf,
                Schema.anyOf, Schema.allOf, Schema.enumVals, hemp',
                Bool.false_eq_true, if_false]
              split <;> simp_all

theorem goGenLE_refl (a : GoState) : goGenLE a a := fun _ h => h

theorem goGenLE_trans {a b c : GoState} (h1 : goGenLE a b)
    (h2 : goGenLE b c) : goGenLE a c :=
  fun x hx => h2 x (h1 x hx)

/-- Stability of `_field_go_type` on plain property schemas: when the
recursive converter is stable, a successful field-type computation only
grows the generated-name set, and re-running it in any state that already
contains the final names changes nothing and returns the same type. -/
theorem goFieldGoType_stable
    (conv : GoState → Schema → Option String → Option (GoState × String))
    (hconv : ∀ s0, Plain s0 → ∀ tn st st' out,
      conv st s0 tn = some (st', out) →
      goGenLE st st' ∧ ∀ st2 : GoState, goGenLE st' st2 →
        conv st2 s0 tn = some (st2, out))
    (ps : Schema) (hp : Plain ps) :
    ∀ goName ptn st st' out,
    goFieldGoType conv st ps goName ptn = some (st', out) →
    goGenLE st st' ∧ ∀ st2 : GoState, goGenLE st' st2 →
      goFieldGoType conv st2 ps goName ptn = some (st2, out) := by
  intro goName ptn st st' out heq
  simp only [goFieldGoType] at heq
  split at heq
  · -- no parent type name
    obtain ⟨h1, h2⟩ := hconv ps hp none st st' out heq
    exact ⟨h1, fun st2 hle => by
      simp only [goFieldGoType]; exact h2 st2 hle⟩
  · rename_i ptn'
    split at heq
    · -- empty parent name
      rename_i hptn
      obtain ⟨h1, h2⟩ := hconv ps hp none st st' out heq
      refine ⟨h1, fun st2 hle => ?_⟩
      simp only [goFieldGoType]
      rw [if_pos hptn]
      exact h2 st2 hle
    · rename_i hptn
      split at heq
      · -- nested object with properties
        rename_i hobj
        obtain ⟨h1, h2⟩ := hconv ps hp (some (ptn' ++ goName)) st st' out heq
        refine ⟨h1, fun st2 hle => ?_⟩
        simp only [goFieldGoType]
        rw [if_neg hptn, if_pos hobj]
        exact h2 st2 hle
      · rename_i hobj
        split at heq
        · -- array
          rename_i harr
          split at heq
          · -- array of objects
            rename_i hio
            split at heq
            · exact Option.noConfusion heq
            · rename_i st1 itemType hc
              have h := Option.some.inj heq
              rw [Prod.mk.injEq] at h
              obtain ⟨hA, hB⟩ := h
              obtain ⟨h1, h2⟩ := hconv (ps.items.getD Schema.empty)
                (Plain_items hp) _ st st1 itemType hc
              refine ⟨hA ▸ h1, fun st2 hle => ?_⟩
              simp only [goFieldGoType]
              rw [if_neg hptn, if_neg hobj, if_pos harr, if_pos hio]
              simp only [h2 st2 (fun x hx => hle x (hA ▸ hx))]
              rw [← hB]
          · rename_i hio
            obtain ⟨h1, h2⟩ := hconv ps hp none st st' out heq
            refine ⟨h1, fun st2 hle => ?_⟩
            simp only [goFieldGoType]
            rw [if_neg hptn, if_neg hobj, if_pos harr, if_neg hio]
            exact h2 st2 hle
        · rename_i harr
          obtain ⟨h1, h2⟩ := hconv ps hp none st st' out heq
          refine ⟨h1, fun st2 hle => ?_⟩
          simp only [goFieldGoType]
          rw [if_neg hptn, if_neg hobj, if_neg harr]
          exact h2 st2 hle

/-- Stability of the `_build_struct_fields` loop, lifted from
`goFieldGoType_stable` field by field. -/
theorem goStructFieldLines_stable
    (conv : GoState → Schema → Option String → Option (GoState × String))
    (hconv : ∀ s0, Plain s0 → ∀ tn st st' out,
      conv st s0 tn = some (st', out) →
      goGenLE st st' ∧ ∀ st2 : GoState, goGenLE st' st2 →
        conv st2 s0 tn = some (st2, out)) :
    ∀ (props : List (String × Schema)), (∀ p ∈ props, Plain p.2) →
    ∀ requiredFields ptn st st' lines,
    goStructFieldLines conv st props requiredFields ptn = some (st', lines) →
    goGenLE st st' ∧ ∀ st2 : GoState, goGenLE st' st2 →
      goStructFieldLines conv st2 props requiredFields ptn
        = some (st2, lines) := by
  intro props
  induction props with
  | nil =>
    intro _ requiredFields ptn st st' lines heq
    rw [goStructFieldLines] at heq
    have h := Option.some.inj heq
    rw [Prod.mk.injEq] at h
    obtain ⟨h1, h2⟩ := h
    exact ⟨h1 ▸ goGenLE_refl st, fun st2 _ => by
      rw [goStructFieldLines, ← h2]⟩
  | cons p rest ih =>
    intro hpl requiredFields ptn st st' lines heq
    obtain ⟨jsonName, propSchema⟩ := p
    simp only [goStructFieldLines] at heq
    split at heq
    · exact Option.noConfusion heq
    · rename_i st1 goType0 hc
      obtain ⟨hsub1, hrun1⟩ := goFieldGoType_stable conv hconv propSchema
        (hpl (jsonName, propSchema) (List.mem_cons_self _ _))
        (goFieldName jsonName) ptn st st1 goType0 hc
      split at heq
      · exact Option.noConfusion heq
      · rename_i st2x ls hrest
        have h := Option.some.inj heq
        rw [Prod.mk.injEq] at h
        obtain ⟨h1, h2⟩ := h
        obtain ⟨hsub2, hrun2⟩ := ih
          (fun q hq => hpl q (List.mem_cons_of_mem _ hq))
          requiredFields ptn st1 st2x ls hrest
        refine ⟨h1 ▸ goGenLE_trans hsub1 hsub2, fun stB hle => ?_⟩
        have hle1 : goGenLE st1 stB :=
          goGenLE_trans hsub2 (fun x hx => hle x (h1 ▸ hx))
        simp only [goStructFieldLines, hrun1 stB hle1,
          hrun2 stB (fun x hx => hle x (h1 ▸ hx))]
        rw [← h2]

/-- Stability of `GolangConverter.convert_schema` on plain schemas (no
ref and no composite keywords anywhere inside): a successful conversion
only grows the generated-name set, and re-running it (with the same name
hint) in any state that already contains the final names is a no-op with
identical output text. -/
theorem goConvert_plain_stable (schemas : List (String × Schema)) :
    ∀ (n : Nat) (s : Schema), Plain s → ∀ tn st st' out,
    goConvert schemas n st s tn = some (st', out) →
    goGenLE st st' ∧ ∀ st2 : GoState, goGenLE st' st2 →
      goConvert schemas n st2 s tn = some (st2, out) := by
  intro n
  induction n using Nat.strong_induction_on with
  | _ n ih =>
    intro s hp tn st st' out heq
    cases n with
    | zero => exact absurd heq (by simp [goConvert])
    | succ m =>
      have ihm := ih m (Nat.lt_succ_self m)
      cases hp with
      | intro typ props req items ap ev hprops hitems hap =>
        by_cases hemp : (Schema.mk typ none props req items ap ev none none
            none).isEmptyDict = true
        · simp only [goConvert] at heq
          rw [if_pos hemp] at heq
          have h := Option.some.inj heq
          rw [Prod.mk.injEq] at h
          obtain ⟨h1, h2⟩ := h
          refine ⟨h1 ▸ goGenLE_refl st, fun st2 _ => ?_⟩
          simp only [goConvert]
          rw [if_pos hemp, ← h2]
        · have hemp' : (Schema.mk typ none props req items ap ev none none
              none).isEmptyDict = false := by
            exact Bool.not_eq_true _ ▸ eq_false_of_ne_true hemp
          simp only [goConvert, Schema.ref, Schema.typ, Schema.oneOf,
            Schema.anyOf, Schema.allOf, Schema.enumVals, hemp',
            Bool.false_eq_true, if_false, Option.isSome_none] at heq
          split at heq
          · -- arm 1: object
            have hconv : ∀ s0, Plain s0 → ∀ tnA stA stA' outA,
                goConvert schemas m stA s0 tnA = some (stA', outA) →
                goGenLE stA stA' ∧ ∀ stB : GoState, goGenLE stA' stB →
                  goConvert schemas m stB s0 tnA = some (stB, outA) :=
              fun s0 hs0 tnA stA stA' outA hc =>
                ihm s0 hs0 tnA stA stA' outA hc
            simp only [goConvertObject, Schema.properties, Schema.required,
              Schema.addProps] at heq
            split at heq
            · -- properties empty
              rename_i hpe
              split at heq
              · -- additionalProperties is a schema
                rename_i apS
                split at heq
                · exact Option.noConfusion heq
                · rename_i st1 vt hc
                  have h := Option.some.inj heq
                  rw [Prod.mk.injEq] at h
                  obtain ⟨h1, h2⟩ := h
                  obtain ⟨hsub, hrun⟩ := ihm apS (hap apS rfl) none st st1 vt hc
                  refine ⟨h1 ▸ hsub, fun st2 hle => ?_⟩
                  simp only [goConvert, Schema.ref, Schema.typ, hemp',
                    Bool.false_eq_true, if_false]
                  simp only [goConvertObject, Schema.properties,
                    Schema.required, Schema.addProps]
                  rw [if_pos hpe]
                  simp only [hrun st2 (fun x hx => hle x (h1 ▸ hx))]
                  rw [← h2]
              · -- additionalProperties not a schema
                rename_i hnotschema
                have h := Option.some.inj heq
                rw [Prod.mk.injEq] at h
                obtain ⟨h1, h2⟩ := h
                refine ⟨h1 ▸ goGenLE_refl st, fun st2 _ => ?_⟩
                simp only [goConvert, Schema.ref, Schema.typ, hemp',
                  Bool.false_eq_true, if_false]
                simp only [goConvertObject, Schema.properties,
                  Schema.required, Schema.addProps]
                rw [if_pos hpe]
                cases ap with
                | tru => rw [← h2]
                | other => rw [← h2]
                | schema apS => exact absurd rfl (hnotschema apS)
            · -- properties nonempty
              rename_i hpe
              split at heq
              · exact Option.noConfusion heq
              · rename_i stf fields hfl
                obtain ⟨hsubf, hrunf⟩ := goStructFieldLines_stable
                  (goConvert schemas m) hconv (props.getD [])
                  (fun p hpm => hprops p hpm) (req.getD []) tn st stf
                  fields hfl
                split at heq
                · -- tn = some name
                  rename_i name
                  split at heq
                  · -- fresh nonempty hint: register
                    rename_i hg
                    have h := Option.some.inj heq
                    rw [Prod.mk.injEq] at h
                    obtain ⟨h1, h2⟩ := h
                    have hsub' : goGenLE st st' := by
                      intro x hx
                      rw [← h1]
                      exact (mem_setInsert _ _ _).mpr (Or.inr (hsubf x hx))
                    refine ⟨hsub', fun st2 hle => ?_⟩
                    have hlef : goGenLE stf st2 := by
                      intro x hx
                      refine hle x ?_
                      rw [← h1]
                      exact (mem_setInsert _ _ _).mpr (Or.inr hx)
                    have hnamein : name ∈ st2.generated_types := by
                      refine hle name ?_
                      rw [← h1]
                      exact (mem_setInsert _ _ _).mpr (Or.inl rfl)
                    simp only [goConvert, Schema.ref, Schema.typ, hemp',
                      Bool.false_eq_true, if_false]
                    simp only [goConvertObject, Schema.properties,
                      Schema.required, Schema.addProps]
                    rw [if_neg hpe]
                    simp only [hrunf st2 hlef]
                    rw [if_neg (fun hgg => hgg.2 (List.elem_iff.mpr hnamein)),
                      if_pos hg.1, ← h2]
                  · -- name already generated (or empty)
                    rename_i hg
                    split at heq
                    · -- nonempty name: returned as-is
                      rename_i hne
                      have h := Option.some.inj heq
                      rw [Prod.mk.injEq] at h
                      obtain ⟨h1, h2⟩ := h
                      have hcont : stf.generated_types.contains name
                          = true := by
                        by_contra hnc
                        exact hg ⟨hne, fun hc2 => hnc hc2⟩
                      refine ⟨h1 ▸ hsubf, fun st2 hle => ?_⟩
                      have hnamein : name ∈ st2.generated_types :=
                        hle name (h1 ▸ List.elem_iff.mp hcont)
                      simp only [goConvert, Schema.ref, Schema.typ, hemp',
                        Bool.false_eq_true, if_false]
                      simp only [goConvertObject, Schema.properties,
                        Schema.required, Schema.addProps]
                      rw [if_neg hpe]
                      simp only [hrunf st2 (fun x hx => hle x (h1 ▸ hx))]
                      rw [if_neg (fun hgg =>
                          hgg.2 (List.elem_iff.mpr hnamein)),
                        if_pos hne, ← h2]
                    · -- empty name: map fallback
                      rename_i hne
                      have h := Option.some.inj heq
                      rw [Prod.mk.injEq] at h
                      obtain ⟨h1, h2⟩ := h
                      refine ⟨h1 ▸ hsubf, fun st2 hle => ?_⟩
                      simp only [goConvert, Schema.ref, Schema.typ, hemp',
                        Bool.false_eq_true, if_false]
                      simp only [goConvertObject, Schema.properties,
                        Schema.required, Schema.addProps]
                      rw [if_neg hpe]
                      simp only [hrunf st2 (fun x hx => hle x (h1 ▸ hx))]
                      rw [if_neg (fun hgg => hne hgg.1), if_neg hne, ← h2]
                · -- no hint: map fallback
                  have h := Option.some.inj heq
                  rw [Prod.mk.injEq] at h
                  obtain ⟨h1, h2⟩ := h
                  refine ⟨h1 ▸ hsubf, fun st2 hle => ?_⟩
                  simp only [goConvert, Schema.ref, Schema.typ, hemp',
                    Bool.false_eq_true, if_false]
                  simp only [goConvertObject, Schema.properties,
                    Schema.required, Schema.addProps]
                  rw [if_neg hpe]
                  simp only [hrunf st2 (fun x hx => hle x (h1 ▸ hx))]
                  rw [← h2]
          · -- arm 2: array
            simp only [Schema.items] at heq
            split at heq
            · -- items absent
              have h := Option.some.inj heq
              rw [Prod.mk.injEq] at h
              obtain ⟨h1, h2⟩ := h
              refine ⟨h1 ▸ goGenLE_refl st, fun st2 _ => ?_⟩
              simp only [goConvert, Schema.ref, Schema.typ, Schema.items,
                hemp', Bool.false_eq_true, if_false]
              rw [← h2]
            · rename_i it
              split at heq
              · -- items is the empty dict
                rename_i hie
                have h := Option.some.inj heq
                rw [Prod.mk.injEq] at h
                obtain ⟨h1, h2⟩ := h
                refine ⟨h1 ▸ goGenLE_refl st, fun st2 _ => ?_⟩
                simp only [goConvert, Schema.ref, Schema.typ, Schema.items,
                  hemp', Bool.false_eq_true, if_false]
                rw [if_pos hie, ← h2]
              · rename_i hie
                split at heq
                · exact Option.noConfusion heq
                · rename_i st1 itemType hc
                  obtain ⟨hsub, hrun⟩ := ihm it (hitems it rfl) none st st1
                    itemType hc
                  have h := Option.some.inj heq
                  rw [Prod.mk.injEq] at h
                  obtain ⟨h1, h2⟩ := h
                  refine ⟨h1 ▸ hsub, fun st2 hle => ?_⟩
                  simp only [goConvert, Schema.ref, Schema.typ, Schema.items,
                    hemp', Bool.false_eq_true, if_false]
                  rw [if_neg hie]
                  simp only [hrun st2 (fun x hx => hle x (h1 ▸ hx))]
                  rw [← h2]
          · -- arm 3: string
            have h := Option.some.inj heq
            rw [Prod.mk.injEq] at h
            obtain ⟨h1, h2⟩ := h
            refine ⟨h1 ▸ goGenLE_refl st, fun st2 _ => ?_⟩
            simp only [goConvert, Schema.ref, Schema.typ, hemp',
              Bool.false_eq_true, if_false]
            rw [← h2]
          · -- arm 4: integer
            have h := Option.some.inj heq
            rw [Prod.mk.injEq] at h
            obtain ⟨h1, h2⟩ := h
            refine ⟨h1 ▸ goGenLE_refl st, fun st2 _ => ?_⟩
            simp only [goConvert, Schema.ref, Schema.typ, hemp',
              Bool.false_eq_true, if_false]
            rw [← h2]
          · -- arm 5: number
            have h := Option.some.inj heq
            rw [Prod.mk.injEq] at h
            obtain ⟨h1, h2⟩ := h
            refine ⟨h1 ▸ goGenLE_refl st, fun st2 _ => ?_⟩
            simp only [goConvert, Schema.ref, Schema.typ, hemp',
              Bool.false_eq_true, if_false]
            rw [← h2]
          · -- arm 6: boolean
            have h := Option.some.inj heq
            rw [Prod.mk.injEq] at h
            obtain ⟨h1, h2⟩ := h
            refine ⟨h1 ▸ goGenLE_refl st, fun st2 _ => ?_⟩
            simp only [goConvert, Schema.ref, Schema.typ, hemp',
              Bool.false_eq_true, if_false]
            rw [← h2]
          · -- arm 7: null
            have h := Option.some.inj heq
            rw [Prod.mk.injEq] at h
            obtain ⟨h1, h2⟩ := h
            refine ⟨h1 ▸ goGenLE_refl st, fun st2 _ => ?_⟩
            simp only [goConvert, Schema.ref, Schema.typ, hemp',
              Bool.false_eq_true, if_false]
            rw [← h2]
          · -- arm 8: fallthrough to enum / opaque
            cases hev : ev with
            | some vs =>
              rw [hev] at heq
              have h := Option.some.inj heq
              rw [Prod.mk.injEq] at h
              obtain ⟨h1, h2⟩ := h
              refine ⟨h1 ▸ goGenLE_refl st, fun st2 _ => ?_⟩
              simp only [goConvert, Schema.ref, Schema.typ, Schema.oneOf,
                Schema.anyOf, Schema.allOf, Schema.enumVals, hemp',
                Bool.false_eq_true, if_false, Option.isSome_none]
              split <;> simp_all
            | none =>
              rw [hev] at heq
              have h := Option.some.inj heq
              rw [Prod.mk.injEq] at h
              obtain ⟨h1, h2⟩ := h
              refine ⟨h1 ▸ goGenLE_refl st, fun st2 _ => ?_⟩
              simp only [goConvert, Schema.ref, Schema.typ, Schema.oneOf,
                Schema.anyOf, Schema.allOf, Schema.enumVals, hemp',
                Bool.false_eq_true, if_false, Option.isSome_none]
              split <;> simp_all

/-- C3: calling `convert_schema(S, H)` twice on a plain object schema.
Go: the second call returns the same text as the first and leaves the
state untouched (an already-registered `H` short-circuits to the name).
TypeScript: the second call also registers nothing — the state is exactly
`st1` again, so no duplicate declaration for `H` accumulates — but it
returns the inline object literal built from the field lines instead of
the name `H`, so the two calls' output texts differ whenever the first
call returned `H`. -/
theorem c3_repeat_conversion (schemas : List (String × Schema)) (n : Nat)
    (s : Schema) (hp : Plain s) (H : String) :
    (∀ st st' out, goConvert schemas n st s (some H) = some (st', out) →
      goConvert schemas n st' s (some H) = some (st', out)) ∧
    (∀ st st1 out1, tsConvert schemas n st s (some H) = some (st1, out1) →
      s.typ = some "object" → (s.properties.getD []).isEmpty = false →
      ∃ fields,
        tsFieldLines (fun stA sA => tsConvert schemas (n - 1) stA sA none)
          st1 (s.properties.getD []) (s.required.getD [])
          = some (st1, fields) ∧
        tsConvert schemas n st1 s (some H)
          = some (st1,
              "\x7b\n" ++ String.intercalate "\n" fields ++ "\n\x7d")) := by
  constructor
  · intro st st' out heq
    exact (goConvert_plain_stable schemas n s hp (some H)
      st st' out heq).2 st' (goGenLE_refl st')
  · intro st st1 out1 heq htyp hpne
    cases hp with
    | intro typ props req items ap ev hprops hitems hap =>
      simp only [Schema.typ] at htyp
      subst htyp
      simp only [Schema.properties] at hpne
      cases n with
      | zero => exact absurd heq (by simp [tsConvert])
      | succ m =>
        have hemp' : (Schema.mk (some "object") none props req items ap ev
            none none none).isEmptyDict = false := rfl
        simp only [tsConvert, Schema.ref, Schema.typ, hemp',
          Bool.false_eq_true, if_false] at heq
        simp only [tsConvertObject, Schema.properties, Schema.required,
          Schema.addProps] at heq
        rw [if_neg (by simp [hpne])] at heq
        split at heq
        · exact Option.noConfusion heq
        · rename_i stf fields hfl
          have hconv : ∀ p ∈ props.getD [], ∀ stA stA' outA,
              tsConvert schemas m stA p.2 none = some (stA', outA) →
              stA' = stA ∧ ∀ stB : TSState,
                tsConvert schemas m stB p.2 none = some (stB, outA) :=
            fun p hpm stA stA' outA hc =>
              tsConvert_plain_pure schemas m p.2 (hprops p hpm)
                stA stA' outA hc
          obtain ⟨hstf, hind⟩ := tsFieldLines_pure
            (fun stA sA => tsConvert schemas m stA sA none)
            (props.getD []) (req.getD []) hconv st stf fields hfl
          split at heq
          · -- fresh nonempty hint: first call registered H
            rename_i hg
            have h := Option.some.inj heq
            rw [Prod.mk.injEq] at h
            obtain ⟨h1, h2⟩ := h
            refine ⟨fields, hind st1, ?_⟩
            simp only [tsConvert, Schema.ref, Schema.typ, hemp',
              Bool.false_eq_true, if_false]
            simp only [tsConvertObject, Schema.properties, Schema.required,
              Schema.addProps]
            rw [if_neg (by simp [hpne])]
            simp only [hind st1]
            rw [if_neg (fun hgg => hgg.2 (List.elem_iff.mpr (by
              rw [← h1]
              exact (mem_setInsert _ _ _).mpr (Or.inl rfl))))]
          · -- hint empty or already registered: first call was inline
            rename_i hg
            have h := Option.some.inj heq
            rw [Prod.mk.injEq] at h
            obtain ⟨h1, h2⟩ := h
            refine ⟨fields, hind st1, ?_⟩
            simp only [tsConvert, Schema.ref, Schema.typ, hemp',
              Bool.false_eq_true, if_false]
            simp only [tsConvertObject, Schema.properties, Schema.required,
              Schema.addProps]
            rw [if_neg (by simp [hpne])]
            simp only [hind st1]
            rw [if_neg (fun hgg => hg ⟨hgg.1, by rw [h1]; exact hgg.2⟩)]

/-- `c3S` is a plain schema. -/
theorem c3S_plain : Plain c3S :=
  Plain.intro (some "object") (some [("a", Schema.prim "string")])
    (some ["a"]) none .tru none
    (fun p hp => by
      simp only [Option.getD, List.mem_singleton] at hp
      rw [hp]
      exact Plain_prim "string")
    (fun _ h => nomatch h) (fun _ h => nomatch h)

/-- C3 counterexample: in TypeScript a second `convert_schema(c3S, "Foo")`
does not return the existing name `"Foo"` — it returns the inline object
text, so the two calls' outputs differ. -/
theorem c3_counterexample :
    tsConvert [] 3 TSState.initial c3S (some "Foo") = some (c3TsSt, "Foo")
    ∧ tsConvert [] 3 c3TsSt c3S (some "Foo")
        = some (c3TsSt, "\x7b\n  a: string;\n\x7d")
    ∧ ("Foo" : String) ≠ "\x7b\n  a: string;\n\x7d" :=
  ⟨rfl, rfl, by decide⟩

/-- Witness for C3 at the concrete input `c3S`, hint `"Foo"`: the Go
second call is an identical no-op, and the TypeScript second call leaves
the state at `c3TsSt` while returning the inline text. -/
theorem c3_witness :
    goConvert [] 3 c3GoSt c3S (some "Foo") = some (c3GoSt, "Foo")
    ∧ ∃ fields,
      tsFieldLines (fun stA sA => tsConvert [] 2 stA sA none) c3TsSt
          [("a", Schema.prim "string")] ["a"] = some (c3TsSt, fields)
      ∧ tsConvert [] 3 c3TsSt c3S (some "Foo")
          = some (c3TsSt,
              "\x7b\n" ++ String.intercalate "\n" fields ++ "\n\x7d") :=
  ⟨(c3_repeat_conversion [] 3 c3S c3S_plain "Foo").1
      GoState.initial c3GoSt "Foo" rfl,
   (c3_repeat_conversion [] 3 c3S c3S_plain "Foo").2
      TSState.initial c3TsSt "Foo" rfl rfl rfl⟩

end OpenRPCGen
